import Mathlib

/-!
Verification development for the Lig2Boltz YAML batch generator
(`src/lig2boltz/main.py`).  The Python source is shallowly embedded:

* the document model (nested Python dicts / lists / scalars produced by
  `_yaml_to_dict`) becomes the inductive type `Node`;
* `_replaceMarkersInString` (`MARKER_PATTERN.sub` with pattern
  `<<VARIANT(\d+)>>`) becomes the left-to-right scanner `subMarkers`;
* `_yaml_to_dict`, `_dict_to_yaml`, `_deepCopyDict`,
  `_replaceMarkersInDict`, `_extractMarkers` and `generateYamlFiles`
  become the corresponding Lean functions below;
* fallible code returns `Except String`.

Modelling conventions, noted where they matter:
* `\d` of the marker regex is modelled as the ASCII digits `Char.isDigit`
  (no claim exercises non-ASCII decimal digits);
* `json.loads` (used by the parser for typed scalar values) is modelled
  on the subset the claims exercise: `true` / `false`, JSON integers and
  escape-free double-quoted strings; every other input falls back to a
  raw string exactly as the Python `except: pass` does.  Floats, `null`,
  arrays and objects inside a scalar value are outside every theorem
  below;
* Python mutation is embedded by explicit value passing: the batch loop
  mutates only the tree returned by `_deepCopyDict`, which rebuilds
  every dict and list, so the mutation is a functional update of the
  copy, the parser's stack of aliased dicts becomes a zipper whose pop
  writes the updated child back into its parent, and the template value
  is threaded through the batch loop unchanged;
* several recursive scans carry a `fuel` argument so that they are
  structurally recursive and compute inside the kernel; one character is
  consumed per step, so `fuel = length` is always sufficient and the
  wrappers pass exactly that.
-/

namespace Lig2Boltz

/-! ## Characters, lines and small Python string helpers -/

/-- Python whitespace test used by `str.strip` / `str.lstrip` (the inputs
here contain only spaces and tabs besides line content). -/
def isWs (c : Char) : Bool := c = ' ' || c = '\t' || c = '\n' || c = '\r'

/-- `line.strip()` on a list of characters. -/
def pyStrip (l : List Char) : List Char :=
  ((l.dropWhile isWs).reverse.dropWhile isWs).reverse

/-- Leading-whitespace width: `len(line) - len(line.lstrip())`. -/
def indentOf (l : List Char) : Nat := (l.takeWhile isWs).length

/-- `line.split(':', 1)`: the part before the first `:` and the part
after it (the separator removed).  When no `:` occurs the second
component is empty and unused (the caller tests `':' in line` first). -/
def splitFirstColon : List Char → List Char × List Char
  | [] => ([], [])
  | c :: cs =>
    if c = ':' then ([], cs)
    else
      let p := splitFirstColon cs
      (c :: p.1, p.2)

/-- `text.split('\n')`. -/
def splitOnNl : List Char → List (List Char)
  | [] => [[]]
  | c :: cs =>
    if c = '\n' then [] :: splitOnNl cs
    else
      match splitOnNl cs with
      | [] => [[c]]
      | l :: ls => (c :: l) :: ls

/-- Numeric value of a digit string, as Python `int()` on the matched
`\d+` group (ASCII digits). -/
def digitsToNat (ds : List Char) : Nat :=
  ds.foldl (fun a c => 10 * a + (c.toNat - 48)) 0

/-! ## The marker pattern `<<VARIANT(\d+)>>` -/

/-- The nine fixed header characters of `MARKER_PATTERN`. -/
def markerHdr : List Char := ['<', '<', 'V', 'A', 'R', 'I', 'A', 'N', 'T']

/-- Attempt to match `<<VARIANT(\d+)>>` at the head of `cs`; on success
return the numeric index and the length of the matched text.  The regex
takes a maximal digit run followed by `>>` (backtracking cannot succeed
with a shorter run because the run would then be followed by a digit,
not `>`), so maximal munch is exact. -/
def tryMarker (cs : List Char) : Option (Nat × Nat) :=
  if cs.take 9 = markerHdr then
    let rest := cs.drop 9
    let ds := rest.takeWhile Char.isDigit
    if ds ≠ [] ∧ (rest.drop ds.length).take 2 = ['>', '>'] then
      some (digitsToNat ds, 9 + ds.length + 2)
    else none
  else none

/-- One replacement decision of the `re.sub` callback `replaceMatch`:
if `0 <= int(group(1)) - 1 < len(values)` the value is inserted
literally (the return of a callback passed to `re.sub` is used verbatim,
never reinterpreted for escapes), otherwise `match.group(0)` — the
matched text itself — is kept. -/
def replacementFor (values : List String) (n : Nat) (matched : List Char) :
    List Char :=
  if 1 ≤ n ∧ n ≤ values.length then (values.getD (n - 1) "").data
  else matched

/-- `MARKER_PATTERN.sub(replaceMatch, s)`: scan left to right; at a
match emit the replacement and resume after the matched text (inserted
text is never rescanned); at a non-match advance one character. -/
def subMarkersF (values : List String) : Nat → List Char → List Char
  | _, [] => []
  | 0, c :: cs => c :: cs
  | fuel + 1, c :: cs =>
    match tryMarker (c :: cs) with
    | some (n, len) =>
      replacementFor values n ((c :: cs).take len)
        ++ subMarkersF values fuel ((c :: cs).drop len)
    | none => c :: subMarkersF values fuel cs

/-- Marker substitution over a character list. -/
def subMarkers (values : List String) (l : List Char) : List Char :=
  subMarkersF values l.length l

/-- `self._replaceMarkersInString(s, values)`. -/
def replaceMarkersInString (s : String) (values : List String) : String :=
  String.mk (subMarkers values s.data)

/-- `re.findall` of the marker pattern: the digit groups of all
non-overlapping matches, left to right. -/
def findMarkersF : Nat → List Char → List (List Char)
  | _, [] => []
  | 0, _ :: _ => []
  | fuel + 1, c :: cs =>
    match tryMarker (c :: cs) with
    | some (_, len) =>
      ((c :: cs).drop 9).takeWhile Char.isDigit
        :: findMarkersF fuel ((c :: cs).drop len)
    | none => findMarkersF fuel cs

/-- `MARKER_PATTERN.findall(s)` (digit groups). -/
def findallMarkerDigits (l : List Char) : List (List Char) :=
  findMarkersF l.length l

/-! ## Predicates about marker occurrences (used to state the claims) -/

/-- No substring of the form `<<VARIANTn>>` with `1 ≤ n ≤ k` occurs:
at every position of the text, either no marker parses or its index is
`0` or greater than `k`.  At each position at most one marker text can
parse (the digit run of a marker is maximal, since a shorter run would
be followed by a digit rather than `>`), so this is exactly absence of
such substrings. -/
def noMarkerLe (k : Nat) : List Char → Bool
  | [] => true
  | c :: cs =>
    (match tryMarker (c :: cs) with
     | some (n, _) => decide (n = 0 ∨ k < n)
     | none => true) && noMarkerLe k cs

/-- Every `<` of the text lies inside a marker occurrence: scanning like
the substituter, literal (non-match) characters are never `<`. -/
def litCleanF : Nat → List Char → Bool
  | _, [] => true
  | 0, _ :: _ => true
  | fuel + 1, c :: cs =>
    match tryMarker (c :: cs) with
    | some (_, len) => litCleanF fuel ((c :: cs).drop len)
    | none => c ≠ '<' && litCleanF fuel cs

/-- Wrapper for `litCleanF` with adequate fuel. -/
def litClean (l : List Char) : Bool := litCleanF l.length l

/-- The string contains no `<` at all (hypothesis on supplied values in
the amended C2). -/
def noLtChar (s : String) : Bool := s.data.all (fun c => c ≠ '<')

/-- The full text of one marker occurrence `<<VARIANTds>>` with digit
run `ds`. -/
def markerText (ds : List Char) : List Char := markerHdr ++ ds ++ ['>', '>']

/-- A segment of a string scalar as the resolver contract describes it:
a run of literal text, or one marker occurrence identified by its digit
run. -/
inductive MarkerSeg where
  | lit : List Char → MarkerSeg
  | mark : List Char → MarkerSeg

/-- The text a segment list denotes. -/
def segsText : List MarkerSeg → List Char
  | [] => []
  | .lit cs :: rest => cs ++ segsText rest
  | .mark ds :: rest => markerText ds ++ segsText rest

/-- Well-formed segmentation: each literal run contains no `<` (so
every `<` of the text belongs to a marker occurrence) and each marker's
digit run is a nonempty string of digits. -/
def segsOk : List MarkerSeg → Bool
  | [] => true
  | .lit cs :: rest => cs.all (fun c => c ≠ '<') && segsOk rest
  | .mark ds :: rest =>
    decide (ds ≠ []) && ds.all Char.isDigit && segsOk rest

/-- The output the resolver contract prescribes for a segmented string:
literal runs unchanged, a marker with `1 ≤ n ≤ len(values)` replaced by
`values[n-1]`, any other marker occurrence kept verbatim. -/
def segsExpected (values : List String) : List MarkerSeg → List Char
  | [] => []
  | .lit cs :: rest => cs ++ segsExpected values rest
  | .mark ds :: rest =>
    (if 1 ≤ digitsToNat ds ∧ digitsToNat ds ≤ values.length
     then (values.getD (digitsToNat ds - 1) "").data
     else markerText ds) ++ segsExpected values rest

/-! ## The document model -/

/-- A parsed document tree: the Python values produced by
`_yaml_to_dict` — strings, ints, bools, dicts (insertion ordered,
embedded as association lists) and lists.  Floats and `None` can arise
in Python only through `json.loads` scalar shapes outside the subset
modelled here (see the header comment). -/
inductive Node where
  | str : String → Node
  | int : Int → Node
  | bool : Bool → Node
  | map : List (String × Node) → Node
  | list : List Node → Node

/-- `d[k]` lookup in an insertion-ordered dict. -/
def lookupKV (m : List (String × Node)) (k : String) : Option Node :=
  match m with
  | [] => none
  | (k2, v) :: rest => if k2 = k then some v else lookupKV rest k

/-- `d[k] = v` on an insertion-ordered dict: overwrite in place when the
key exists (its position is kept), otherwise append. -/
def insertKV (m : List (String × Node)) (k : String) (v : Node) :
    List (String × Node) :=
  match m with
  | [] => [(k, v)]
  | (k2, v2) :: rest =>
    if k2 = k then (k2, v) :: rest else (k2, v2) :: insertKV rest k v

/-! ## `_deepCopyDict` -/

mutual

/-- `self._deepCopyDict(original)`: dicts and lists are rebuilt
recursively, scalars are returned as they are (immutable in Python). -/
def deepCopyNode : Node → Node
  | .map es => .map (deepCopyEntries es)
  | .list xs => .list (deepCopyItems xs)
  | v => v

def deepCopyEntries : List (String × Node) → List (String × Node)
  | [] => []
  | (k, v) :: es => (k, deepCopyNode v) :: deepCopyEntries es

def deepCopyItems : List Node → List Node
  | [] => []
  | v :: xs => deepCopyNode v :: deepCopyItems xs

end

/-! ## `_replaceMarkersInDict` -/

mutual

/-- `self._replaceMarkersInDict(targetDict, values)`, as a function on
the (unshared, deep-copied) tree it mutates: string children of dicts
and lists are substituted, container children are recursed into, other
scalars are untouched. -/
def replaceMarkersInNode (values : List String) : Node → Node
  | .str s => .str (replaceMarkersInString s values)
  | .map es => .map (replaceMarkersInEntries values es)
  | .list xs => .list (replaceMarkersInItems values xs)
  | v => v

def replaceMarkersInEntries (values : List String) :
    List (String × Node) → List (String × Node)
  | [] => []
  | (k, v) :: es =>
    (k, replaceMarkersInNode values v) :: replaceMarkersInEntries values es

def replaceMarkersInItems (values : List String) : List Node → List Node
  | [] => []
  | v :: xs => replaceMarkersInNode values v :: replaceMarkersInItems values xs

end

/-- Top-level call on the template dict. -/
def replaceMarkersInDict (es : List (String × Node)) (values : List String) :
    List (String × Node) :=
  replaceMarkersInEntries values es

/-! ## `_extractMarkers` -/

mutual

/-- The inner `findMarkers` of `_extractMarkers`: in a dict, string
values are scanned with `findall` and every value is recursed into; in a
list, items are only recursed into — so a string that is a list element
reaches the bare recursion, which does nothing for non-containers, and
is never scanned (faithful to the source). -/
def findMarkersNode : Node → List (List Char)
  | .map es => findMarkersEntries es
  | .list xs => findMarkersItems xs
  | _ => []

def findMarkersEntries : List (String × Node) → List (List Char)
  | [] => []
  | (_, v) :: es =>
    (match v with
     | .str s => findallMarkerDigits s.data
     | _ => []) ++ findMarkersNode v ++ findMarkersEntries es

def findMarkersItems : List Node → List (List Char)
  | [] => []
  | v :: xs => findMarkersNode v ++ findMarkersItems xs

end

/-- Insertion into a `≤`-sorted list of naturals. -/
def insertSortedNat (n : Nat) : List Nat → List Nat
  | [] => [n]
  | m :: ms => if n ≤ m then n :: m :: ms else m :: insertSortedNat n ms

/-- `sorted(...)` on naturals. -/
def sortNats (l : List Nat) : List Nat := l.foldr insertSortedNat []

/-- `self._extractMarkers()`: the distinct marker indices found by
`findMarkers`, sorted ascending (Python keeps distinct digit *strings*
and sorts them with `key=int`; digit strings carrying leading zeros are
identified with their numeric value here, which no claim exercises, and
preserves both emptiness and the maximum). -/
def extractMarkers (template : List (String × Node)) : List Nat :=
  sortNats (((findMarkersEntries template).map digitsToNat).dedup)

/-! ## `_yaml_to_dict` (the parser) -/

/-- JSON natural-number body: `0` alone, or a nonzero digit followed by
digits. -/
def parseJsonNat (l : List Char) : Option Nat :=
  match l with
  | [] => none
  | c :: cs =>
    if c = '0' then if cs = [] then some 0 else none
    else if c.isDigit && cs.all Char.isDigit then some (digitsToNat (c :: cs))
    else none

/-- JSON integer: optional minus, then a JSON natural. -/
def parseJsonInt (l : List Char) : Option Int :=
  match l with
  | [] => none
  | c :: cs =>
    if c = '-' then
      match parseJsonNat cs with
      | some n => some (-(n : Int))
      | none => none
    else
      match parseJsonNat (c :: cs) with
      | some n => some ((n : Int))
      | none => none

/-- JSON string literal without escapes: a double-quoted run of
characters other than `"`, backslash and control characters. -/
def parseJsonQuoted (l : List Char) : Option (List Char) :=
  if 2 ≤ l.length ∧ l.head? = some '"' ∧ l.getLast? = some '"' then
    let inner := (l.drop 1).dropLast
    if inner.all (fun c => c ≠ '"' && c.toNat ≠ 92 && decide (32 ≤ c.toNat))
    then some inner
    else none
  else none

/-- The typed-value probe of the parser: `json.loads(value)` with
fallback to the raw string (`except: pass`), modelled on the
`true`/`false`/integer/quoted-string subset (see the header comment). -/
def parseScalar (l : List Char) : Node :=
  if l = "true".data then .bool true
  else if l = "false".data then .bool false
  else
    match parseJsonInt l with
    | some i => .int i
    | none =>
      match parseJsonQuoted l with
      | some inner => .str (String.mk inner)
      | none => .str (String.mk l)

/-- Parser state: `parent_dicts` (as a zipper: each frame keeps the
parent dict's entries and the key descended through), `current_dict`
(which Python lets become a non-dict through a stale `last_key`),
`current_indent` and `last_key` (`none` while still unassigned). -/
structure PState where
  stack : List (List (String × Node) × String)
  cur : Node
  curIndent : Nat
  lastKey : Option String

/-- Initial parser state: `data = {}`, empty stack, indent 0, `last_key`
unassigned. -/
def initPState : PState := ⟨[], .map [], 0, none⟩

/-- Processing of one line of `_yaml_to_dict`.  Blank and `#` lines are
skipped.  An indent increase pushes the current dict and descends
through `last_key` (unassigned `last_key`, a missing key, or a non-dict
current raise, which the enclosing `try` of `_loadTemplate` converts to
`ValueError`).  An indent decrease pops exactly one frame — the loop
assigns `current_indent` to the new line's indent inside its body, so
its guard fails after the first pop.  Then a line containing `:` is
split on the first `:`; an empty value inserts a fresh empty dict and
records `last_key`, a non-empty one inserts the typed scalar; lines
without `:` are silently skipped. -/
def pstep (st : PState) (line : List Char) : Except String PState :=
  let stripped := pyStrip line
  if stripped = [] || stripped.head? = some '#' then .ok st
  else
    let indent := indentOf line
    let afterIndent : Except String PState :=
      if st.curIndent < indent then
        match st.lastKey with
        | none => .error "UnboundLocalError: last_key referenced before assignment"
        | some k =>
          match st.cur with
          | .map m =>
            match lookupKV m k with
            | some v => .ok ⟨(m, k) :: st.stack, v, indent, st.lastKey⟩
            | none => .error "KeyError"
          | _ => .error "TypeError: value is not subscriptable"
      else if indent < st.curIndent then
        match st.stack with
        | [] => .ok st
        | (parent, k) :: rest =>
          .ok ⟨rest, .map (insertKV parent k st.cur), indent, st.lastKey⟩
      else .ok st
    match afterIndent with
    | .error e => .error e
    | .ok st1 =>
      if line.contains ':' then
        let p := splitFirstColon line
        let key := String.mk (pyStrip p.1)
        let value := pyStrip p.2
        if value = [] then
          match st1.cur with
          | .map m =>
            .ok ⟨st1.stack, .map (insertKV m key (.map [])), st1.curIndent,
              some key⟩
          | _ => .error "TypeError: item assignment on a non-dict"
        else
          match st1.cur with
          | .map m =>
            .ok ⟨st1.stack, .map (insertKV m key (parseScalar value)),
              st1.curIndent, st1.lastKey⟩
          | _ => .error "TypeError: item assignment on a non-dict"
      else .ok st1

/-- The line loop. -/
def parseLines (st : PState) : List (List Char) → Except String PState
  | [] => .ok st
  | l :: ls =>
    match pstep st l with
    | .error e => .error e
    | .ok st1 => parseLines st1 ls

/-- Reassemble the zipper: write the current node back into each parent
frame.  Python needs no write-back (the parents alias the children);
the zipper makes the sharing explicit. -/
def finalize : List (List (String × Node) × String) → Node → Node
  | [], cur => cur
  | (parent, k) :: rest, cur => finalize rest (.map (insertKV parent k cur))

/-- `self._yaml_to_dict(yaml_str)` (with `_loadTemplate`'s `try` around
it: any exception becomes a `ValueError`). -/
def yamlToDict (s : String) : Except String Node :=
  match parseLines initPState (splitOnNl s.data) with
  | .error e => .error ("ValueError: " ++ e)
  | .ok st => .ok (finalize st.stack st.cur)

/-! ## `_dict_to_yaml` (the serializer) -/

/-- `' ' * n`. -/
def spaces (n : Nat) : String := String.mk (List.replicate n ' ')

mutual

/-- Python `repr` of a node, used by `str` on containers.  String
escaping inside `repr` is not modelled beyond quoting (no claim
exercises quotes or backslashes inside sequence items). -/
def pyReprNode : Node → String
  | .str s => "'" ++ s ++ "'"
  | .int i => toString i
  | .bool b => if b then "True" else "False"
  | .map es => "\x7b" ++ pyReprEntries es ++ "\x7d"
  | .list xs => "[" ++ pyReprItems xs ++ "]"

def pyReprEntries : List (String × Node) → String
  | [] => ""
  | [(k, v)] => "'" ++ k ++ "': " ++ pyReprNode v
  | (k, v) :: es => "'" ++ k ++ "': " ++ pyReprNode v ++ ", " ++ pyReprEntries es

def pyReprItems : List Node → String
  | [] => ""
  | [v] => pyReprNode v
  | v :: xs => pyReprNode v ++ ", " ++ pyReprItems xs

end

/-- Python `str` of a node, as interpolated by the serializer's
f-strings: strings are taken as they are, ints in decimal, bools as
`True`/`False`, containers via `repr`. -/
def pyStr : Node → String
  | .str s => s
  | .map es => pyReprNode (.map es)
  | .list xs => pyReprNode (.list xs)
  | v => pyReprNode v

/-- Membership in `('\x7b', '[', '"', "'")` (char codes 123, 91, 34,
39). -/
def startsWithAnyChar (c : Char) : Bool :=
  c.toNat = 123 || c.toNat = 91 || c.toNat = 34 || c.toNat = 39

/-- `value.startswith(('\x7b', '[', '"', "'"))`. -/
def startsWithAny (s : String) : Bool :=
  match s.data with
  | [] => false
  | c :: _ => startsWithAnyChar c

/-- The scalar text emitted for a string value, at mapping indentation
`indent`.  A string with a newline becomes `|-` followed by
`"".join(indent_str + line for line in value.split('\n'))` — the join
separator really is the empty string in the source, so the lines are
concatenated without newlines; a string containing `:` not opening with
a brace, bracket or quote is wrapped in double quotes; anything else is
emitted raw. -/
def strScalarText (s : String) (indent : Nat) : String :=
  if s.data.contains '\n' then
    "|-\n" ++ String.join (((splitOnNl s.data).map String.mk).map
      (fun line => spaces (indent + 2) ++ line))
  else if s.data.contains ':' && !(startsWithAny s) then "\"" ++ s ++ "\""
  else s

mutual

/-- `self._dict_to_yaml(data, indent)`. -/
def dictToYaml : List (String × Node) → Nat → String
  | [], _ => ""
  | (key, value) :: rest, indent =>
    dictToYamlEntry key value indent ++ dictToYaml rest indent

/-- One `key: value` entry of the serializer's loop. -/
def dictToYamlEntry (key : String) : Node → Nat → String
  | .map es, indent => spaces indent ++ key ++ ":\n" ++ dictToYaml es (indent + 2)
  | .list xs, indent => spaces indent ++ key ++ ":\n" ++ dictToYamlItems xs indent
  | .str s, indent => spaces indent ++ key ++ ": " ++ strScalarText s indent ++ "\n"
  | v, indent => spaces indent ++ key ++ ": " ++ pyStr v ++ "\n"

/-- The sequence branch: each item prefixed by `- ` at the parent's
indent + 2; dict items recurse at indent + 4. -/
def dictToYamlItems : List Node → Nat → String
  | [], _ => ""
  | item :: rest, indent => dictToYamlItem item indent ++ dictToYamlItems rest indent

/-- One sequence item. -/
def dictToYamlItem : Node → Nat → String
  | .map es, indent => spaces indent ++ "  - \n" ++ dictToYaml es (indent + 4)
  | v, indent => spaces indent ++ "  - " ++ pyStr v ++ "\n"

end

/-! ## `generateYamlFiles` (the batch orchestrator) -/

/-- The parameters of `_log` after `self`. -/
def logParams : List String := ["message"]

/-- A Python call with the given keyword arguments binds only if every
keyword names a parameter; otherwise it raises `TypeError`. -/
def logCallOk (kwargs : List String) : Bool :=
  kwargs.all (fun k => logParams.contains k)

/-- One iteration of the batch loop on the template: deep-copy, resolve
markers on the copy, serialize.  The template travels alongside the
output: `_replaceMarkersInDict` mutates only the tree that
`_deepCopyDict` rebuilt, so the template value is returned unchanged. -/
def recordStep (template : List (String × Node)) (values : List String) :
    List (String × Node) × String :=
  (template, dictToYaml (replaceMarkersInDict (deepCopyEntries template) values) 0)

/-- The `for i, data in enumerate(inputData)` loop of
`generateYamlFiles`.  `writeFails i` models an `OSError` from the
`open`/`write` of record `i` (resolving and serializing are total).
The `except` handler calls `self._log(..., file=sys.stderr)`, but `file`
is not a parameter of `_log`, so the handler itself raises `TypeError`,
which propagates and aborts the loop. -/
def genLoop (writeFails : Nat → Bool) :
    List (String × Node) → Nat → Nat → List (List String) →
      Except String Nat × List (String × Node)
  | tmpl, _, succ, [] => (.ok succ, tmpl)
  | tmpl, i, succ, r :: rs =>
    let step := recordStep tmpl r
    if writeFails i then
      if logCallOk ["file"] then genLoop writeFails step.1 (i + 1) succ rs
      else
        (.error "TypeError: _log() got an unexpected keyword argument: file",
          step.1)
    else genLoop writeFails step.1 (i + 1) (succ + 1) rs

/-- `generateYamlFiles(self, inputData, fileType)`.  `markers` is
`self.markers` (numerically), `template` is `self.template`; each
record is given as its replacement-value list (`[data]` for a txt line,
the row itself for csv); for csv the required count is the maximal row
width (Python's `max` on an empty sequence raises, but `readInputFile`
rejects empty input).  Returns the result (success count or the
propagated exception) together with the template after the run. -/
def generateYamlFiles (markers : List Nat) (template : List (String × Node))
    (inputData : List (List String)) (isTxt : Bool)
    (writeFails : Nat → Bool) :
    Except String Nat × List (String × Node) :=
  let required : Option Nat :=
    if isTxt then some 1
    else
      match inputData.map List.length with
      | [] => none
      | x :: xs => some (xs.foldl max x)
  match required with
  | none => (.error "ValueError: max() arg is an empty sequence", template)
  | some req =>
    if markers = [] then
      (.error "ValueError: no VARIANT markers found in template", template)
    else
      match markers.getLast? with
      | none => (.error "unreachable", template)
      | some top =>
        if top < req then
          (.error "ValueError: not enough markers in template", template)
        else genLoop writeFails template 0 0 inputData

/-! ## String scalars of a tree (to state the tree-level claims) -/

mutual

/-- All string scalars contained in a node, in traversal order. -/
def nodeStrings : Node → List String
  | .str s => [s]
  | .map es => entriesStrings es
  | .list xs => itemsStrings xs
  | _ => []

def entriesStrings : List (String × Node) → List String
  | [] => []
  | (_, v) :: es => nodeStrings v ++ entriesStrings es

def itemsStrings : List Node → List String
  | [] => []
  | v :: xs => nodeStrings v ++ itemsStrings xs

end

/-- Every supplied value is `<`-free (hypothesis of the amended C2). -/
def valuesClean (values : List String) : Bool := values.all noLtChar

/-- Every string scalar of the tree has all its `<` characters inside
marker occurrences (hypothesis of the amended C2). -/
def treeClean (es : List (String × Node)) : Bool :=
  (entriesStrings es).all (fun s => litClean s.data)

/-- No string scalar of the tree contains a `<<VARIANTn>>` substring
with `1 ≤ n ≤ k` (conclusion of the amended C2). -/
def treeNoMarkerLe (k : Nat) (es : List (String × Node)) : Bool :=
  (entriesStrings es).all (fun s => noMarkerLe k s.data)

/-! ## The plain round-trip subset (for the amended C4) -/

/-- Characters admissible in a plain mapping key. -/
def isKeyChar (c : Char) : Bool := c.isAlphanum || c = '_' || c = '-'

/-- A plain key: nonempty, alphabetic first character, key characters
throughout (in particular no `:`, no whitespace, no `#`). -/
def plainKey (k : String) : Bool :=
  match k.data with
  | [] => false
  | c :: _ => c.isAlpha && k.data.all isKeyChar

/-- Characters admissible in a plain string scalar. -/
def isPlainChar (c : Char) : Bool :=
  c.isAlphanum || c = ' ' || c = ':' || c = '_' || c = '-' || c = '.' ||
    c = ',' || c = '/' || c = '(' || c = ')' || c = '<' || c = '>'

/-- The words `json.loads` accepts bare (so a plain string must differ
from them). -/
def litWords : List String := ["true", "false", "null", "NaN", "Infinity"]

/-- A plain string scalar: nonempty, first character a letter or `<`,
plain characters throughout, not ending in a space (so `strip` keeps
it), and not one of the bare literal words. -/
def plainStr (s : String) : Bool :=
  match s.data with
  | [] => false
  | c :: _ =>
    (c.isAlpha || c = '<') && s.data.all isPlainChar &&
      !(s.data.getLast? = some ' ') && !(litWords.contains s)

/-- Pairwise-distinct key list. -/
def keysDistinct : List String → Bool
  | [] => true
  | k :: ks => !(ks.contains k) && keysDistinct ks

/-- An admissible inner entry: plain key, plain string value. -/
def goodInnerEntry : String × Node → Bool
  | (k, v) =>
    plainKey k &&
      (match v with
       | .str s => plainStr s
       | _ => false)

/-- An admissible top-level value: a plain string scalar or a mapping of
admissible inner entries with distinct keys (nesting depth at most
two — the parser's single-frame dedent cannot restore deeper
structure, see C6). -/
def goodTopVal : Node → Bool
  | .str s => plainStr s
  | .map es => keysDistinct (es.map Prod.fst) && es.all goodInnerEntry
  | _ => false

/-- An admissible top-level tree for the round-trip theorem. -/
def goodTop (es : List (String × Node)) : Bool :=
  keysDistinct (es.map Prod.fst) &&
    es.all (fun kv => plainKey kv.1 && goodTopVal kv.2)

/-! ## Line-level view of the serializer (proof support for C4) -/

/-- Join lines with `\n` after each (the serializer ends every line with
`\n`). -/
def unlines (ls : List (List Char)) : List Char :=
  ls.foldr (fun l acc => l ++ '\n' :: acc) []

/-- The one line of a top-level scalar entry. -/
def topScalarLine (k s : String) : List Char :=
  k.data ++ ':' :: ' ' :: (strScalarText s 0).data

/-- The one line of an inner (depth-2) scalar entry. -/
def innerScalarLine (k s : String) : List Char :=
  ' ' :: ' ' :: (k.data ++ ':' :: ' ' :: (strScalarText s 2).data)

/-- Lines of an inner mapping (values beyond string scalars do not occur
in the admissible subset and get a placeholder). -/
def serInnerLines : List (String × Node) → List (List Char)
  | [] => []
  | (k, v) :: rest =>
    (match v with
     | .str s => innerScalarLine k s
     | _ => []) :: serInnerLines rest

/-- Lines of a top-level tree in the admissible subset. -/
def serTopLines : List (String × Node) → List (List Char)
  | [] => []
  | (k, v) :: rest =>
    (match v with
     | .str s => [topScalarLine k s]
     | .map inner => (k.data ++ [':']) :: serInnerLines inner
     | _ => []) ++ serTopLines rest

/-- The two parser-state shapes occurring between top-level entries:
either at the root with accumulated entries `macc`, or still descended
into the mapping value of the previous entry, with the pending pop
producing `macc`. -/
def RepTop (st : PState) (macc : List (String × Node)) : Prop :=
  (st.stack = [] ∧ st.cur = .map macc ∧ st.curIndent = 0) ∨
  (∃ M k0 inner, st.stack = [(M, k0)] ∧ st.cur = .map inner ∧
    st.curIndent = 2 ∧ insertKV M k0 (.map inner) = macc)

/-! # Theorems -/

theorem tryMarker_len_ge (cs : List Char) (n len : Nat)
    (h : tryMarker cs = some (n, len)) : 11 ≤ len := by
  unfold tryMarker at h
  split at h
  · dsimp at h
    split at h
    · injection h with h'
      injection h' with h1 h2
      omega
    · exact absurd h (by simp)
  · exact absurd h (by simp)

/-- With enough fuel the result does not depend on the fuel. -/
theorem subMarkersF_fuel_irrel (values : List String) :
    ∀ (f g : Nat) (l : List Char), l.length ≤ f → l.length ≤ g →
      subMarkersF values f l = subMarkersF values g l
  | _, _, [], _, _ => by simp [subMarkersF]
  | f + 1, g + 1, c :: cs, hf, hg => by
    rw [subMarkersF, subMarkersF]
    cases h : tryMarker (c :: cs) with
    | none =>
      have ih := subMarkersF_fuel_irrel values f g cs
        (by simpa using hf) (by simpa using hg)
      dsimp only
      rw [ih]
    | some p =>
      obtain ⟨n, len⟩ := p
      have hlen := tryMarker_len_ge _ _ _ h
      have ih := subMarkersF_fuel_irrel values f g ((c :: cs).drop len)
        (by simp at hf ⊢; omega) (by simp at hg ⊢; omega)
      dsimp only
      rw [ih]

/-- Unfolding equation for `subMarkers` on a cons cell. -/
theorem subMarkers_cons (values : List String) (c : Char) (cs : List Char) :
    subMarkers values (c :: cs) =
      match tryMarker (c :: cs) with
      | some (n, len) =>
        replacementFor values n ((c :: cs).take len)
          ++ subMarkers values ((c :: cs).drop len)
      | none => c :: subMarkers values cs := by
  show subMarkersF values (cs.length + 1) (c :: cs) = _
  rw [subMarkersF]
  cases h : tryMarker (c :: cs) with
  | none =>
    dsimp only [subMarkers]
  | some p =>
    obtain ⟨n, len⟩ := p
    have hlen := tryMarker_len_ge _ _ _ h
    dsimp only [subMarkers]
    rw [subMarkersF_fuel_irrel values cs.length ((c :: cs).drop len).length
      ((c :: cs).drop len) (by simp; omega) (le_refl _)]

theorem noMarkerLe_tail (k : Nat) (c : Char) (cs : List Char)
    (h : noMarkerLe k (c :: cs) = true) : noMarkerLe k cs = true := by
  simp only [noMarkerLe, Bool.and_eq_true] at h
  exact h.2

theorem noMarkerLe_drop (k : Nat) :
    ∀ (m : Nat) (l : List Char), noMarkerLe k l = true →
      noMarkerLe k (l.drop m) = true
  | 0, l, h => h
  | _ + 1, [], h => h
  | m + 1, c :: cs, h => by
    rw [List.drop_succ_cons]
    exact noMarkerLe_drop k m cs (noMarkerLe_tail k c cs h)

/-- Head position of `noMarkerLe`: the marker parsing at the front (if
any) is out of range. -/
theorem noMarkerLe_head (k : Nat) (c : Char) (cs : List Char) (n len : Nat)
    (h : noMarkerLe k (c :: cs) = true)
    (hm : tryMarker (c :: cs) = some (n, len)) : n = 0 ∨ k < n := by
  simp only [noMarkerLe, hm, Bool.and_eq_true] at h
  simpa using h.1

mutual

/-- `_deepCopyDict` rebuilds a tree equal to its input. -/
theorem deepCopyNode_id : ∀ n : Node, deepCopyNode n = n
  | .str _ => rfl
  | .int _ => rfl
  | .bool _ => rfl
  | .map es => by rw [deepCopyNode, deepCopyEntries_id]
  | .list xs => by rw [deepCopyNode, deepCopyItems_id]

theorem deepCopyEntries_id : ∀ es : List (String × Node), deepCopyEntries es = es
  | [] => rfl
  | (_, v) :: es => by rw [deepCopyEntries, deepCopyNode_id, deepCopyEntries_id]

theorem deepCopyItems_id : ∀ xs : List Node, deepCopyItems xs = xs
  | [] => rfl
  | v :: xs => by rw [deepCopyItems, deepCopyNode_id, deepCopyItems_id]

end

/-- The batch loop threads the template through unchanged: each record
works on the deep copy, never on the template. -/
theorem genLoop_template (wf : Nat → Bool) :
    ∀ (rs : List (List String)) (tmpl : List (String × Node)) (i succ : Nat),
      (genLoop wf tmpl i succ rs).2 = tmpl
  | [], _, _, _ => rfl
  | r :: rs, tmpl, i, succ => by
    rw [genLoop]
    by_cases h : wf i
    · rw [if_pos h]
      have hlog : logCallOk ["file"] = false := rfl
      rw [hlog]
      simp only [Bool.false_eq_true, if_false]
      rfl
    · rw [if_neg h]
      exact genLoop_template wf rs tmpl (i + 1) (succ + 1)

/-- Core of C9: when every marker occurring in the text is out of range
for the supplied values (index `0` or above their count), the scan
copies every position verbatim. -/
theorem subMarkersF_id_of_noMarkerLe (values : List String) :
    ∀ (fuel : Nat) (l : List Char), l.length ≤ fuel →
      noMarkerLe values.length l = true → subMarkersF values fuel l = l
  | _, [], _, _ => by simp [subMarkersF]
  | fuel + 1, c :: cs, hf, h => by
    rw [subMarkersF]
    cases hm : tryMarker (c :: cs) with
    | none =>
      dsimp only
      rw [subMarkersF_id_of_noMarkerLe values fuel cs (by simpa using hf)
        (noMarkerLe_tail _ _ _ h)]
    | some p =>
      obtain ⟨n, len⟩ := p
      have hlen := tryMarker_len_ge _ _ _ hm
      have hout := noMarkerLe_head _ _ _ _ _ h hm
      dsimp only
      rw [subMarkersF_id_of_noMarkerLe values fuel ((c :: cs).drop len)
        (by simp at hf ⊢; omega) (noMarkerLe_drop _ _ _ h)]
      rw [replacementFor, if_neg (by omega)]
      exact List.take_append_drop len (c :: cs)

/-! ## Lemmas for the amended C2 -/

theorem tryMarker_none_head {c : Char} (cs : List Char) (h : c ≠ '<') :
    tryMarker (c :: cs) = none := by
  unfold tryMarker
  rw [if_neg]
  intro he
  rw [List.take_succ_cons, markerHdr] at he
  exact h (List.cons.inj he).1

theorem tryMarker_none_second {c : Char} (cs : List Char) (h : c ≠ '<') :
    tryMarker ('<' :: c :: cs) = none := by
  unfold tryMarker
  rw [if_neg]
  intro he
  rw [List.take_succ_cons, List.take_succ_cons, markerHdr] at he
  exact h (List.cons.inj (List.cons.inj he).2).1

theorem isDigit_ne_lt {c : Char} (hd : c.isDigit = true) : c ≠ '<' := by
  intro he
  rw [he] at hd
  exact absurd hd (by decide)

theorem noMarkerLe_cons_of_none (k : Nat) {c : Char} {cs : List Char}
    (hn : tryMarker (c :: cs) = none) (ht : noMarkerLe k cs = true) :
    noMarkerLe k (c :: cs) = true := by
  rw [noMarkerLe, hn, ht]
  rfl

theorem noMarkerLe_append_noLt (k : Nat) :
    ∀ (x y : List Char), (∀ c ∈ x, c ≠ '<') → noMarkerLe k y = true →
      noMarkerLe k (x ++ y) = true
  | [], _, _, hy => hy
  | c :: x, y, hx, hy => by
    rw [List.cons_append]
    exact noMarkerLe_cons_of_none k
      (tryMarker_none_head _ (hx c (List.mem_cons_self c x)))
      (noMarkerLe_append_noLt k x y (fun d hd => hx d (List.mem_cons_of_mem c hd)) hy)

/-- `takeWhile isDigit` over a digit run followed by `>`. -/
theorem takeWhile_digits_gt :
    ∀ (ds : List Char) (rest : List Char), (∀ c ∈ ds, c.isDigit = true) →
      ((ds ++ '>' :: rest).takeWhile Char.isDigit) = ds
  | [], rest, _ => by simp [List.takeWhile]
  | c :: ds, rest, hd => by
    rw [List.cons_append, List.takeWhile_cons_of_pos
      (by exact hd c (List.mem_cons_self c ds))]
    rw [takeWhile_digits_gt ds rest (fun d h => hd d (List.mem_cons_of_mem c h))]

/-- The marker pattern parses marker text followed by anything, giving
its digit run's value. -/
theorem tryMarker_marker_text (ds y : List Char) (hne : ds ≠ [])
    (hd : ∀ c ∈ ds, c.isDigit = true) :
    tryMarker (markerHdr ++ (ds ++ '>' :: '>' :: y))
      = some (digitsToNat ds, 9 + ds.length + 2) := by
  have htw : ((ds ++ '>' :: '>' :: y).takeWhile Char.isDigit) = ds :=
    takeWhile_digits_gt ds ('>' :: y) hd
  have hlen : markerHdr.length = 9 := rfl
  unfold tryMarker
  rw [← hlen, List.take_left, List.drop_left, if_pos rfl]
  dsimp only
  rw [htw, if_pos ⟨hne, by rw [List.drop_left]; rfl⟩]

/-- Decomposition of a successful marker parse: the matched text is the
header, a nonempty digit run and `>>`. -/
theorem tryMarker_decomp (l : List Char) (n len : Nat)
    (h : tryMarker l = some (n, len)) :
    ∃ ds : List Char, ds ≠ [] ∧ (∀ c ∈ ds, c.isDigit = true) ∧
      n = digitsToNat ds ∧ len = 9 + ds.length + 2 ∧
      l.take len = markerHdr ++ ds ++ ['>', '>'] := by
  unfold tryMarker at h
  split at h
  case isFalse => exact absurd h (by simp)
  case isTrue h9 =>
    dsimp at h
    split at h
    case isFalse => exact absurd h (by simp)
    case isTrue hcond =>
      injection h with h'
      injection h' with h1 h2
      refine ⟨(l.drop 9).takeWhile Char.isDigit, hcond.1,
        fun c hc => List.mem_takeWhile_imp hc, h1.symm, h2.symm, ?_⟩
      subst h2
      have hpre : (l.drop 9).takeWhile Char.isDigit <+: l.drop 9 :=
        List.takeWhile_prefix _
      have htake : ((l.drop 9).take ((l.drop 9).takeWhile Char.isDigit).length)
          = (l.drop 9).takeWhile Char.isDigit := (List.prefix_iff_eq_take.mp hpre).symm
      have hdd : List.drop (9 + ((l.drop 9).takeWhile Char.isDigit).length) l
          = (l.drop 9).drop ((l.drop 9).takeWhile Char.isDigit).length := by
        rw [List.drop_drop, Nat.add_comm]
      rw [List.take_add, List.take_add, h9, htake, hdd, hcond.2,
        List.append_assoc]

/-- A verbatim out-of-range marker text followed by clean output is
clean: the only position where a marker parses is its start, and there
it parses to the same out-of-range index. -/
theorem noMarkerLe_marker_text (k : Nat) (ds y : List Char) (hne : ds ≠ [])
    (hd : ∀ c ∈ ds, c.isDigit = true)
    (hn : digitsToNat ds = 0 ∨ k < digitsToNat ds)
    (hy : noMarkerLe k y = true) :
    noMarkerLe k (markerHdr ++ (ds ++ '>' :: '>' :: y)) = true := by
  have h7 : ∀ c ∈ (['V', 'A', 'R', 'I', 'A', 'N', 'T'] : List Char), c ≠ '<' := by
    decide
  have hgt2 : ∀ c ∈ (['>', '>'] : List Char), c ≠ '<' := by decide
  have hx : ∀ c ∈ ((['V', 'A', 'R', 'I', 'A', 'N', 'T'] : List Char) ++ ds ++
      ['>', '>']), c ≠ '<' := by
    intro c hc
    rw [List.append_assoc, List.mem_append] at hc
    cases hc with
    | inl hin => exact h7 c hin
    | inr hrest =>
      rw [List.mem_append] at hrest
      cases hrest with
      | inl hds => exact isDigit_ne_lt (hd _ hds)
      | inr hgt => exact hgt2 c hgt
  have htail2 : noMarkerLe k
      ('V' :: 'A' :: 'R' :: 'I' :: 'A' :: 'N' :: 'T' :: (ds ++ '>' :: '>' :: y))
        = true := by
    have := noMarkerLe_append_noLt k
      ((['V', 'A', 'R', 'I', 'A', 'N', 'T'] : List Char) ++ ds ++ ['>', '>']) y hx hy
    have heq : ((['V', 'A', 'R', 'I', 'A', 'N', 'T'] : List Char) ++ ds ++
        ['>', '>']) ++ y
        = 'V' :: 'A' :: 'R' :: 'I' :: 'A' :: 'N' :: 'T' :: (ds ++ '>' :: '>' :: y) := by
      simp
    rw [heq] at this
    exact this
  have htail1 : noMarkerLe k
      ('<' :: 'V' :: 'A' :: 'R' :: 'I' :: 'A' :: 'N' :: 'T' ::
        (ds ++ '>' :: '>' :: y)) = true := by
    refine noMarkerLe_cons_of_none k ?_ htail2
    exact tryMarker_none_second _ (by decide)
  show noMarkerLe k ('<' :: '<' :: 'V' :: 'A' :: 'R' :: 'I' :: 'A' :: 'N' :: 'T' ::
    (ds ++ '>' :: '>' :: y)) = true
  rw [noMarkerLe]
  have hm : tryMarker ('<' :: '<' :: 'V' :: 'A' :: 'R' :: 'I' :: 'A' :: 'N' :: 'T' ::
      (ds ++ '>' :: '>' :: y)) = some (digitsToNat ds, 9 + ds.length + 2) :=
    tryMarker_marker_text ds y hne hd
  rw [hm, htail1]
  simp only [Bool.and_true]
  simpa using hn

/-- Core of the amended C2: when every supplied value is `<`-free and
every literal `<` of the input lies inside a marker occurrence, the
substituted text contains no marker with index between 1 and the number
of supplied values: in-range markers are replaced by `<`-free values,
out-of-range markers stay verbatim with their out-of-range index, and
no new marker can form across piece boundaries. -/
theorem noMarkerLe_subMarkersF (values : List String)
    (hv : ∀ v ∈ values, noLtChar v = true) :
    ∀ (fuel : Nat) (l : List Char), l.length ≤ fuel →
      litCleanF fuel l = true →
      noMarkerLe values.length (subMarkersF values fuel l) = true
  | _, [], _, _ => by simp [subMarkersF, noMarkerLe]
  | 0, c :: cs, hf, _ => by simp at hf
  | fuel + 1, c :: cs, hf, hclean => by
    rw [subMarkersF]
    rw [litCleanF] at hclean
    cases hm : tryMarker (c :: cs) with
    | none =>
      rw [hm] at hclean
      dsimp only at hclean ⊢
      rw [Bool.and_eq_true] at hclean
      have ih := noMarkerLe_subMarkersF values hv fuel cs
        (by simpa using hf) hclean.2
      refine noMarkerLe_cons_of_none _ ?_ ih
      exact tryMarker_none_head _ (by simpa using hclean.1)
    | some p =>
      obtain ⟨n, len⟩ := p
      rw [hm] at hclean
      dsimp only at hclean ⊢
      have hlen := tryMarker_len_ge _ _ _ hm
      have ih := noMarkerLe_subMarkersF values hv fuel ((c :: cs).drop len)
        (by simp at hf ⊢; omega) hclean
      rw [replacementFor]
      split
      case isTrue hin =>
        have hget : values.getD (n - 1) "" ∈ values := by
          have hlt : n - 1 < values.length := by omega
          rw [List.getD_eq_getElem values "" hlt]
          exact List.getElem_mem hlt
        have hclean2 := hv _ hget
        refine noMarkerLe_append_noLt _ _ _ ?_ ih
        intro d hd
        have := List.all_eq_true.mp hclean2 d hd
        simpa using this
      case isFalse hout =>
        obtain ⟨ds, hne, hdig, hnval, hlenval, htak⟩ :=
          tryMarker_decomp _ _ _ hm
        rw [htak]
        have : markerHdr ++ ds ++ ['>', '>'] ++ subMarkersF values fuel
            ((c :: cs).drop len)
            = markerHdr ++ (ds ++ '>' :: '>' :: subMarkersF values fuel
              ((c :: cs).drop len)) := by
          simp
        rw [this]
        refine noMarkerLe_marker_text _ _ _ hne hdig ?_ ih
        omega

/-- Wrapper at the `subMarkers` level. -/
theorem noMarkerLe_subMarkers (values : List String) (l : List Char)
    (hv : ∀ v ∈ values, noLtChar v = true) (hc : litClean l = true) :
    noMarkerLe values.length (subMarkers values l) = true :=
  noMarkerLe_subMarkersF values hv l.length l (le_refl _) hc

/-! ## Segment-wise computation of the substitution -/

/-- A `<`-free literal run passes through the scan unchanged; the scan
continues on the rest. -/
theorem subMarkers_lit_append (values : List String) :
    ∀ (x y : List Char), (∀ c ∈ x, c ≠ '<') →
      subMarkers values (x ++ y) = x ++ subMarkers values y
  | [], y, _ => by rw [List.nil_append, List.nil_append]
  | c :: x, y, h => by
    rw [List.cons_append, subMarkers_cons,
      tryMarker_none_head _ (h c (List.mem_cons_self c x))]
    dsimp only
    rw [subMarkers_lit_append values x y
        (fun d hd => h d (List.mem_cons_of_mem c hd)),
      List.cons_append]

/-- On `<`-free text alone the substitution is the identity. -/
theorem subMarkers_id_of_noLt (values : List String) (l : List Char)
    (h : ∀ c ∈ l, c ≠ '<') : subMarkers values l = l := by
  have h2 := subMarkers_lit_append values l [] h
  rw [List.append_nil] at h2
  rw [h2, show subMarkers values ([] : List Char) = [] from rfl,
    List.append_nil]

/-- The scan at a marker occurrence: the occurrence is consumed whole,
the callback's decision for its index is emitted, and the scan resumes
after the occurrence — the emitted text is never rescanned. -/
theorem subMarkers_marker_head (values : List String) (ds y : List Char)
    (hne : ds ≠ []) (hd : ∀ c ∈ ds, c.isDigit = true) :
    subMarkers values (markerText ds ++ y)
      = replacementFor values (digitsToNat ds) (markerText ds)
        ++ subMarkers values y := by
  have hlen9 : markerHdr.length = 9 := rfl
  have hshape : markerText ds ++ y = markerHdr ++ (ds ++ '>' :: '>' :: y) := by
    simp [markerText]
  have he : 9 + ds.length + 2 = 9 + (ds.length + 2) := by omega
  have htk : (markerHdr ++ (ds ++ '>' :: '>' :: y)).take (9 + ds.length + 2)
      = markerText ds := by
    rw [he, List.take_add, ← hlen9, List.take_left, List.drop_left,
      List.take_add, List.take_left, List.drop_left,
      show ('>' :: '>' :: y).take 2 = ['>', '>'] from rfl, markerText,
      List.append_assoc]
  have hdd1 : (markerHdr ++ (ds ++ '>' :: '>' :: y)).drop (9 + (ds.length + 2))
      = ((markerHdr ++ (ds ++ '>' :: '>' :: y)).drop 9).drop (ds.length + 2) := by
    rw [List.drop_drop, Nat.add_comm]
  have hdd2 : (ds ++ '>' :: '>' :: y).drop (ds.length + 2)
      = ((ds ++ '>' :: '>' :: y).drop ds.length).drop 2 := by
    rw [List.drop_drop, Nat.add_comm]
  have hdrp : (markerHdr ++ (ds ++ '>' :: '>' :: y)).drop (9 + ds.length + 2)
      = y := by
    rw [he, hdd1, ← hlen9, List.drop_left, hdd2, List.drop_left,
      show ('>' :: '>' :: y).drop 2 = y from rfl]
  rw [hshape]
  show subMarkers values ('<' :: '<' :: 'V' :: 'A' :: 'R' :: 'I' :: 'A' :: 'N'
    :: 'T' :: (ds ++ '>' :: '>' :: y)) = _
  rw [subMarkers_cons]
  have hm : tryMarker ('<' :: '<' :: 'V' :: 'A' :: 'R' :: 'I' :: 'A' :: 'N'
      :: 'T' :: (ds ++ '>' :: '>' :: y))
        = some (digitsToNat ds, 9 + ds.length + 2) :=
    tryMarker_marker_text ds y hne hd
  rw [hm]
  dsimp only
  have htk2 : ('<' :: '<' :: 'V' :: 'A' :: 'R' :: 'I' :: 'A' :: 'N' :: 'T'
      :: (ds ++ '>' :: '>' :: y)).take (9 + ds.length + 2) = markerText ds := htk
  have hdr2 : ('<' :: '<' :: 'V' :: 'A' :: 'R' :: 'I' :: 'A' :: 'N' :: 'T'
      :: (ds ++ '>' :: '>' :: y)).drop (9 + ds.length + 2) = y := hdrp
  rw [htk2, hdr2]

/-- The resolver contract for the string engine: on a string decomposed
into `<`-free literal runs and marker occurrences, the scan keeps the
literal runs, replaces each marker with `1 ≤ n ≤ len(values)` by
`values[n-1]` inserted literally, and keeps every other marker
occurrence verbatim. -/
theorem subMarkers_segsText (values : List String) :
    ∀ segs : List MarkerSeg, segsOk segs = true →
      subMarkers values (segsText segs) = segsExpected values segs
  | [], _ => rfl
  | .lit cs :: rest, h => by
    rw [segsOk, Bool.and_eq_true] at h
    rw [segsText, segsExpected,
      subMarkers_lit_append values cs _ (fun c hc => by
        have := List.all_eq_true.mp h.1 c hc
        simpa using this),
      subMarkers_segsText values rest h.2]
  | .mark ds :: rest, h => by
    rw [segsOk] at h
    simp only [Bool.and_eq_true] at h
    obtain ⟨⟨hne, hdig⟩, hrest⟩ := h
    rw [segsText, segsExpected,
      subMarkers_marker_head values ds _ (of_decide_eq_true hne)
        (fun c hc => List.all_eq_true.mp hdig c hc),
      subMarkers_segsText values rest hrest,
      replacementFor]

mutual

/-- The resolver maps exactly the string scalars of a tree through
`_replaceMarkersInString`, preserving shape. -/
theorem nodeStrings_replace (values : List String) :
    ∀ n : Node, nodeStrings (replaceMarkersInNode values n)
      = (nodeStrings n).map (fun s => replaceMarkersInString s values)
  | .str s => rfl
  | .int _ => rfl
  | .bool _ => rfl
  | .map es => by
    rw [replaceMarkersInNode, nodeStrings, nodeStrings,
      entriesStrings_replace values es]
  | .list xs => by
    rw [replaceMarkersInNode, nodeStrings, nodeStrings,
      itemsStrings_replace values xs]

theorem entriesStrings_replace (values : List String) :
    ∀ es : List (String × Node),
      entriesStrings (replaceMarkersInEntries values es)
        = (entriesStrings es).map (fun s => replaceMarkersInString s values)
  | [] => rfl
  | (_, v) :: es => by
    rw [replaceMarkersInEntries, entriesStrings, entriesStrings,
      nodeStrings_replace values v, entriesStrings_replace values es,
      List.map_append]

theorem itemsStrings_replace (values : List String) :
    ∀ xs : List Node,
      itemsStrings (replaceMarkersInItems values xs)
        = (itemsStrings xs).map (fun s => replaceMarkersInString s values)
  | [] => rfl
  | v :: xs => by
    rw [replaceMarkersInItems, itemsStrings, itemsStrings,
      nodeStrings_replace values v, itemsStrings_replace values xs,
      List.map_append]

end

/-! ## Lemmas for the amended C5 -/

/-- Blank and comment lines are skipped without touching the state. -/
theorem pstep_skip (st : PState) (l : List Char)
    (h : pyStrip l = [] ∨ (pyStrip l).head? = some '#') :
    pstep st l = .ok st := by
  unfold pstep
  rw [if_pos]
  cases h with
  | inl h0 => simp [h0]
  | inr h1 => simp [h1]

/-- A content line whose indentation exceeds the current one makes the
parser descend; with `last_key` still unassigned this raises
(`UnboundLocalError`, surfaced as `ValueError`). -/
theorem pstep_indent_no_lastKey (st : PState) (l : List Char)
    (hc1 : pyStrip l ≠ []) (hc2 : (pyStrip l).head? ≠ some '#')
    (hind : st.curIndent < indentOf l) (hlk : st.lastKey = none) :
    pstep st l
      = .error "UnboundLocalError: last_key referenced before assignment" := by
  unfold pstep
  rw [if_neg (by simp [hc1, hc2])]
  dsimp only
  rw [if_pos hind, hlk]

theorem parseLines_error_after_skips (pre : List (List Char)) (l : List Char)
    (post : List (List Char)) (st : PState)
    (hpre : ∀ p ∈ pre, pyStrip p = [] ∨ (pyStrip p).head? = some '#')
    (hstep : ∃ e, pstep st l = .error e) :
    ∃ e, parseLines st (pre ++ l :: post) = .error e := by
  induction pre with
  | nil =>
    obtain ⟨e, he⟩ := hstep
    refine ⟨e, ?_⟩
    rw [List.nil_append, parseLines, he]
  | cons p pre ih =>
    rw [List.cons_append, parseLines,
      pstep_skip st p (hpre p (List.mem_cons_self p pre))]
    exact ih (fun q hq => hpre q (List.mem_cons_of_mem p hq))

/-! ## Character and line facts for the round-trip proof (C4) -/

theorem dropWhile_eq_self_of_head (p : Char → Bool) (l : List Char)
    (h : l.head?.all (fun c => !p c) = true) : l.dropWhile p = l := by
  cases l with
  | nil => rfl
  | cons c cs =>
    have hc : p c = false := by simpa using h
    simp [List.dropWhile_cons, hc]

theorem pyStrip_eq_self (l : List Char)
    (hh : l.head?.all (fun c => !isWs c) = true)
    (hl : l.getLast?.all (fun c => !isWs c) = true) : pyStrip l = l := by
  unfold pyStrip
  rw [dropWhile_eq_self_of_head _ _ hh]
  rw [dropWhile_eq_self_of_head _ _ (by rw [List.head?_reverse]; exact hl)]
  exact List.reverse_reverse l

theorem pyStrip_cons_space (l : List Char) : pyStrip (' ' :: l) = pyStrip l := by
  unfold pyStrip
  rw [List.dropWhile_cons_of_pos (by decide)]

theorem indentOf_of_head (c : Char) (cs : List Char) (h : isWs c = false) :
    indentOf (c :: cs) = 0 := by
  unfold indentOf
  rw [List.takeWhile_cons_of_neg (by simp [h])]
  rfl

theorem indentOf_two_spaces (c : Char) (cs : List Char) (h : isWs c = false) :
    indentOf (' ' :: ' ' :: c :: cs) = 2 := by
  unfold indentOf
  rw [List.takeWhile_cons_of_pos (by decide),
    List.takeWhile_cons_of_pos (by decide),
    List.takeWhile_cons_of_neg (by simp [h])]
  rfl

theorem splitFirstColon_append (xs ys : List Char) (h : ∀ c ∈ xs, c ≠ ':') :
    splitFirstColon (xs ++ ':' :: ys) = (xs, ys) := by
  induction xs with
  | nil => simp [splitFirstColon]
  | cons c xs ih =>
    rw [List.cons_append, splitFirstColon,
      if_neg (h c (List.mem_cons_self c xs)),
      ih (fun d hd => h d (List.mem_cons_of_mem c hd))]

theorem contains_colon_append (xs ys : List Char) :
    (xs ++ ':' :: ys).contains ':' = true := by
  have : (':' : Char) ∈ xs ++ ':' :: ys :=
    List.mem_append_right xs (List.mem_cons_self ':' ys)
  exact List.elem_eq_true_of_mem this

theorem splitOnNl_append_cons (xs ys : List Char) (h : ∀ c ∈ xs, c ≠ '\n') :
    splitOnNl (xs ++ '\n' :: ys) = xs :: splitOnNl ys := by
  induction xs with
  | nil => simp [splitOnNl]
  | cons c xs ih =>
    rw [List.cons_append, splitOnNl,
      if_neg (h c (List.mem_cons_self c xs)),
      ih (fun d hd => h d (List.mem_cons_of_mem c hd))]

theorem splitOnNl_unlines (ls : List (List Char))
    (h : ∀ l ∈ ls, ∀ c ∈ l, c ≠ '\n') :
    splitOnNl (unlines ls) = ls ++ [[]] := by
  induction ls with
  | nil => rfl
  | cons l ls ih =>
    show splitOnNl (l ++ '\n' :: unlines ls) = (l :: ls) ++ [[]]
    rw [splitOnNl_append_cons l _ (h l (List.mem_cons_self l ls)),
      ih (fun m hm => h m (List.mem_cons_of_mem l hm))]
    rfl

/-- Bounds of an alphanumeric character's code. -/
theorem isAlphanum_bounds (c : Char) (h : c.isAlphanum = true) :
    48 ≤ c.toNat ∧ c.toNat ≤ 57 ∨ 65 ≤ c.toNat ∧ c.toNat ≤ 90 ∨
      97 ≤ c.toNat ∧ c.toNat ≤ 122 := by
  unfold Char.isAlphanum Char.isAlpha Char.isDigit Char.isUpper Char.isLower at h
  simp only [Bool.or_eq_true, Bool.and_eq_true, decide_eq_true_eq] at h
  rcases h with (⟨h1, h2⟩ | ⟨h1, h2⟩) | ⟨h1, h2⟩
  · have g1 : 65 ≤ c.toNat := h1
    have g2 : c.toNat ≤ 90 := h2
    omega
  · have g1 : 97 ≤ c.toNat := h1
    have g2 : c.toNat ≤ 122 := h2
    omega
  · have g1 : 48 ≤ c.toNat := h1
    have g2 : c.toNat ≤ 57 := h2
    omega

/-- Numeric character facts used throughout: a plain character is
printable, differs from the characters the parser and serializer treat
specially, and — except for the space — is not whitespace. -/
theorem isPlainChar_facts (c : Char) (h : isPlainChar c = true) :
    c ≠ '"' ∧ c.toNat ≠ 92 ∧ 32 ≤ c.toNat ∧ c ≠ '\n' ∧
      (c ≠ ' ' → isWs c = false) := by
  unfold isPlainChar at h
  simp only [Bool.or_eq_true, decide_eq_true_eq] at h
  rcases h with ((((((((((ha | rfl) | rfl) | rfl) | rfl) | rfl) | rfl) | rfl)
    | rfl) | rfl) | rfl) | rfl
  · have hn := isAlphanum_bounds c ha
    have hws : isWs c = false := by
      cases hw : isWs c
      · rfl
      · exfalso
        unfold isWs at hw
        simp only [Bool.or_eq_true, decide_eq_true_eq] at hw
        rcases hw with ((rfl | rfl) | rfl) | rfl
        all_goals exact absurd hn (by decide)
    refine ⟨fun he => ?_, by omega, by omega, fun he => ?_, fun _ => hws⟩
    · rw [he] at hn
      exact absurd hn (by decide)
    · rw [he] at hn
      exact absurd hn (by decide)
  all_goals decide

theorem isKeyChar_facts (c : Char) (h : isKeyChar c = true) :
    c ≠ ':' ∧ c ≠ '\n' ∧ isWs c = false ∧ c ≠ '#' := by
  unfold isKeyChar at h
  simp only [Bool.or_eq_true, decide_eq_true_eq] at h
  rcases h with (ha | rfl) | rfl
  · have hn := isAlphanum_bounds c ha
    have hws : isWs c = false := by
      cases hw : isWs c
      · rfl
      · exfalso
        unfold isWs at hw
        simp only [Bool.or_eq_true, decide_eq_true_eq] at hw
        rcases hw with ((rfl | rfl) | rfl) | rfl
        all_goals exact absurd hn (by decide)
    refine ⟨fun he => ?_, fun he => ?_, hws, fun he => ?_⟩
    all_goals rw [he] at hn
    all_goals exact absurd hn (by decide)
  all_goals decide

theorem isAlpha_bounds (c : Char) (h : c.isAlpha = true) :
    65 ≤ c.toNat ∧ c.toNat ≤ 90 ∨ 97 ≤ c.toNat ∧ c.toNat ≤ 122 := by
  unfold Char.isAlpha Char.isUpper Char.isLower at h
  simp only [Bool.or_eq_true, Bool.and_eq_true, decide_eq_true_eq] at h
  rcases h with ⟨h1, h2⟩ | ⟨h1, h2⟩
  · have g1 : 65 ≤ c.toNat := h1
    have g2 : c.toNat ≤ 90 := h2
    omega
  · have g1 : 97 ≤ c.toNat := h1
    have g2 : c.toNat ≤ 122 := h2
    omega

/-- Facts about an admissible first character of a plain string: it is
not whitespace, not a comment or quote opener, not a sign or digit, and
not one of the serializer's quote-suppressing openers. -/
theorem plainFirst_facts (c : Char) (h : (c.isAlpha || c = '<') = true) :
    isWs c = false ∧ c ≠ '#' ∧ c ≠ '"' ∧ c ≠ '-' ∧ c.isDigit = false ∧
      startsWithAnyChar c = false := by
  simp only [Bool.or_eq_true, decide_eq_true_eq] at h
  rcases h with ha | rfl
  · have hn := isAlpha_bounds c ha
    have hws : isWs c = false := by
      cases hw : isWs c
      · rfl
      · exfalso
        unfold isWs at hw
        simp only [Bool.or_eq_true, decide_eq_true_eq] at hw
        rcases hw with ((rfl | rfl) | rfl) | rfl
        all_goals exact absurd hn (by decide)
    have hdig : c.isDigit = false := by
      cases hd : c.isDigit
      · rfl
      · exfalso
        unfold Char.isDigit at hd
        simp only [Bool.and_eq_true, decide_eq_true_eq] at hd
        have g1 : 48 ≤ c.toNat := hd.1
        have g2 : c.toNat ≤ 57 := hd.2
        omega
    have hsw : startsWithAnyChar c = false := by
      cases hw : startsWithAnyChar c
      · rfl
      · exfalso
        unfold startsWithAnyChar at hw
        simp only [Bool.or_eq_true, decide_eq_true_eq] at hw
        rcases hw with ((hw | hw) | hw) | hw
        all_goals omega
    refine ⟨hws, fun he => ?_, fun he => ?_, fun he => ?_, hdig, hsw⟩
    all_goals rw [he] at hn
    all_goals exact absurd hn (by decide)
  · exact ⟨by decide, by decide, by decide, by decide, by decide, by decide⟩

/-! ## Typed-scalar probe lemmas (C4) -/

theorem parseJsonNat_none_head (c : Char) (cs : List Char)
    (hd : c.isDigit = false) : parseJsonNat (c :: cs) = none := by
  unfold parseJsonNat
  dsimp only
  rw [if_neg, if_neg]
  · simp [hd]
  · intro he
    rw [he] at hd
    exact absurd hd (by decide)

theorem parseJsonInt_none (c : Char) (cs : List Char)
    (hd : c.isDigit = false) (hm : c ≠ '-') :
    parseJsonInt (c :: cs) = none := by
  unfold parseJsonInt
  dsimp only
  rw [if_neg hm, parseJsonNat_none_head c cs hd]

theorem parseJsonQuoted_none_head (l : List Char) (h : l.head? ≠ some '"') :
    parseJsonQuoted l = none := by
  unfold parseJsonQuoted
  rw [if_neg]
  intro hc
  exact h hc.2.1

theorem parseJsonQuoted_quoted (s : String)
    (hinner : ∀ c ∈ s.data, isPlainChar c = true) :
    parseJsonQuoted ('"' :: s.data ++ ['"']) = some s.data := by
  unfold parseJsonQuoted
  rw [if_pos]
  · dsimp only
    rw [show List.drop 1 ('"' :: s.data ++ ['"']) = s.data ++ ['"'] from rfl,
      List.dropLast_concat]
    rw [if_pos]
    rw [List.all_eq_true]
    intro c hc
    obtain ⟨h1, h2, h3, _, _⟩ := isPlainChar_facts c (hinner c hc)
    simp [h1, h2, h3]
  · refine ⟨by simp, rfl, ?_⟩
    rw [List.getLast?_concat]

/-- A plain string scalar, unquoted, re-parses as itself. -/
theorem parseScalar_plain (s : String) (hp : plainStr s = true) :
    parseScalar s.data = .str s := by
  unfold plainStr at hp
  cases hd : s.data with
  | nil =>
    rw [hd] at hp
    dsimp only at hp
    exact absurd hp (by decide)
  | cons c cs =>
    rw [hd] at hp
    dsimp only at hp
    simp only [Bool.and_eq_true] at hp
    obtain ⟨⟨⟨hfirst, _⟩, _⟩, hlits⟩ := hp
    obtain ⟨_, _, _, hmm, hdig, _⟩ := plainFirst_facts c hfirst
    have hne : ∀ t : String, litWords.contains t = true → s ≠ t := by
      intro t ht he
      rw [he] at hlits
      rw [ht] at hlits
      exact absurd hlits (by decide)
    unfold parseScalar
    rw [if_neg, if_neg]
    · rw [parseJsonInt_none c cs hdig hmm,
        parseJsonQuoted_none_head _ ?hq]
      case hq =>
        intro he
        rw [List.head?_cons] at he
        injection he with he2
        rw [he2] at hfirst
        exact absurd hfirst (by decide)
      have : String.mk (c :: cs) = s := by
        apply String.ext
        rw [hd]
      rw [this]
    · intro he
      exact hne "false" (by decide) (String.ext (by rw [hd]; exact he))
    · intro he
      exact hne "true" (by decide) (String.ext (by rw [hd]; exact he))

/-- A plain string scalar, double-quoted by the serializer, re-parses
as itself. -/
theorem parseScalar_plain_quoted (s : String) (hp : plainStr s = true) :
    parseScalar ('"' :: s.data ++ ['"']) = .str s := by
  have hall : ∀ d ∈ s.data, isPlainChar d = true := by
    unfold plainStr at hp
    cases hd : s.data with
    | nil => intro d hdm; exact absurd hdm (by simp)
    | cons c cs =>
      rw [hd] at hp
      dsimp only at hp
      simp only [Bool.and_eq_true] at hp
      have := hp.1.1.2
      rw [List.all_eq_true] at this
      intro d hdm
      exact this d hdm
  unfold parseScalar
  rw [if_neg, if_neg]
  · rw [show ('"' :: s.data ++ ['"'] : List Char) = '"' :: (s.data ++ ['"'])
      from rfl]
    rw [parseJsonInt_none '"' _ (by decide) (by decide)]
    rw [show ('"' :: (s.data ++ ['"']) : List Char) = '"' :: s.data ++ ['"']
      from rfl]
    rw [parseJsonQuoted_quoted s hall]
  · intro he
    have : '"' = 'f' := (List.cons.inj he).1
    exact absurd this (by decide)
  · intro he
    have : '"' = 't' := (List.cons.inj he).1
    exact absurd this (by decide)

/-! ## Ordered-dict lemmas (C4) -/

theorem keys_fresh_of_contains (m : List (String × Node)) (k : String)
    (h : (m.map Prod.fst).contains k = false) : ∀ kv ∈ m, kv.1 ≠ k := by
  intro kv hm he
  have hmem : k ∈ m.map Prod.fst := List.mem_map.mpr ⟨kv, hm, he⟩
  have hc : (m.map Prod.fst).contains k = true := List.elem_eq_true_of_mem hmem
  rw [hc] at h
  exact absurd h (by decide)

theorem insertKV_fresh (k : String) (v : Node) :
    ∀ m : List (String × Node), (∀ kv ∈ m, kv.1 ≠ k) →
      insertKV m k v = m ++ [(k, v)]
  | [], _ => rfl
  | (k2, v2) :: m, h => by
    rw [insertKV, if_neg (h (k2, v2) (List.mem_cons_self _ m)),
      insertKV_fresh k v m (fun kv hm => h kv (List.mem_cons_of_mem _ hm))]
    rfl

theorem lookupKV_append_fresh (k : String) (v : Node) :
    ∀ m : List (String × Node), (∀ kv ∈ m, kv.1 ≠ k) →
      lookupKV (m ++ [(k, v)]) k = some v
  | [], _ => by
    rw [List.nil_append]
    simp [lookupKV]
  | (k2, v2) :: m, h => by
    rw [List.cons_append, lookupKV,
      if_neg (h (k2, v2) (List.mem_cons_self _ m)),
      lookupKV_append_fresh k v m (fun kv hm => h kv (List.mem_cons_of_mem _ hm))]

theorem insertKV_append_last (k : String) (v w : Node) :
    ∀ m : List (String × Node), (∀ kv ∈ m, kv.1 ≠ k) →
      insertKV (m ++ [(k, v)]) k w = m ++ [(k, w)]
  | [], _ => by
    rw [List.nil_append]
    simp [insertKV]
  | (k2, v2) :: m, h => by
    rw [List.cons_append, insertKV,
      if_neg (h (k2, v2) (List.mem_cons_self _ m)),
      insertKV_append_last k v w m (fun kv hm => h kv (List.mem_cons_of_mem _ hm))]
    rfl

theorem keysDistinct_mid :
    ∀ (xs : List String) (k : String) (ys : List String),
      keysDistinct (xs ++ k :: ys) = true → xs.contains k = false
  | [], _, _, _ => rfl
  | x :: xs, k, ys, h => by
    rw [List.cons_append, keysDistinct, Bool.and_eq_true] at h
    obtain ⟨h1, h2⟩ := h
    have hxk : x ≠ k := by
      intro he
      subst he
      have hmem : x ∈ xs ++ x :: ys :=
        List.mem_append_right xs (List.mem_cons_self _ _)
      have hc : (xs ++ x :: ys).contains x = true :=
        List.elem_eq_true_of_mem hmem
      rw [hc] at h1
      exact absurd h1 (by decide)
    have ih := keysDistinct_mid xs k ys h2
    have hbeq : (k == x) = false := beq_eq_false_iff_ne.mpr (Ne.symm hxk)
    show ((k == x) || xs.contains k) = false
    rw [ih, hbeq]
    rfl

/-! ## Plain-subset facts (C4) -/

theorem isAlpha_facts (c : Char) (h : c.isAlpha = true) :
    isWs c = false ∧ c ≠ '#' ∧ c ≠ ':' := by
  have hn := isAlpha_bounds c h
  have hws : isWs c = false := by
    cases hw : isWs c
    · rfl
    · exfalso
      unfold isWs at hw
      simp only [Bool.or_eq_true, decide_eq_true_eq] at hw
      rcases hw with ((rfl | rfl) | rfl) | rfl
      all_goals exact absurd hn (by decide)
  refine ⟨hws, fun he => ?_, fun he => ?_⟩
  all_goals rw [he] at hn
  all_goals exact absurd hn (by decide)

theorem plainKey_parts (k : String) (h : plainKey k = true) :
    ∃ kc kcs, k.data = kc :: kcs ∧ kc.isAlpha = true ∧
      (∀ d ∈ k.data, isKeyChar d = true) := by
  unfold plainKey at h
  cases hd : k.data with
  | nil =>
    rw [hd] at h
    dsimp only at h
    exact absurd h (by decide)
  | cons c cs =>
    rw [hd] at h
    dsimp only at h
    simp only [Bool.and_eq_true] at h
    refine ⟨c, cs, rfl, h.1, ?_⟩
    intro d hdm
    exact List.all_eq_true.mp h.2 d hdm

theorem plainStr_parts (s : String) (h : plainStr s = true) :
    ∃ c cs, s.data = c :: cs ∧ (c.isAlpha || c = '<') = true ∧
      (∀ d ∈ s.data, isPlainChar d = true) ∧
      s.data.getLast? ≠ some ' ' := by
  unfold plainStr at h
  cases hd : s.data with
  | nil =>
    rw [hd] at h
    dsimp only at h
    exact absurd h (by decide)
  | cons c cs =>
    rw [hd] at h
    dsimp only at h
    simp only [Bool.and_eq_true] at h
    obtain ⟨⟨⟨h1, h2⟩, h3⟩, _⟩ := h
    refine ⟨c, cs, rfl, h1, ?_, ?_⟩
    · intro d hdm
      exact List.all_eq_true.mp h2 d hdm
    · intro he
      rw [he] at h3
      exact absurd h3 (by decide)

theorem contains_eq_false_of_all (l : List Char) (a : Char)
    (h : ∀ c ∈ l, c ≠ a) : l.contains a = false := by
  cases hc : l.contains a
  · rfl
  · exact absurd rfl (h a (List.mem_of_elem_eq_true hc))

/-- The serializer's scalar text for a plain string: quoted when it
contains a colon, raw otherwise (never the block form, since a plain
string has no newline). -/
theorem strScalarText_eq (s : String) (ind : Nat) (hp : plainStr s = true) :
    (strScalarText s ind).data =
      if s.data.contains ':' then '"' :: s.data ++ ['"'] else s.data := by
  obtain ⟨c, cs, hd, hfirst, hall, _⟩ := plainStr_parts s hp
  have hnl : s.data.contains '\n' = false :=
    contains_eq_false_of_all _ _
      (fun d hdm => (isPlainChar_facts d (hall d hdm)).2.2.2.1)
  have hsw : startsWithAny s = false := by
    unfold startsWithAny
    rw [hd]
    exact (plainFirst_facts c hfirst).2.2.2.2.2
  unfold strScalarText
  rw [hnl]
  cases hcol : s.data.contains ':'
  · simp only [hcol, Bool.false_eq_true, if_false, Bool.false_and]
  · simp only [hcol, Bool.false_eq_true, if_false, hsw, Bool.not_false,
      Bool.and_true, if_true]
    rw [String.data_append, String.data_append]
    simp

/-- Head, tail and content facts about the serializer's scalar text of
a plain string. -/
theorem strScalarText_facts (s : String) (ind : Nat) (hp : plainStr s = true) :
    ∃ t ts, (strScalarText s ind).data = t :: ts ∧ isWs t = false ∧
      ((strScalarText s ind).data.getLast?.all fun d => !isWs d) = true ∧
      (∀ d ∈ (strScalarText s ind).data, d ≠ '\n') := by
  obtain ⟨c, cs, hd, hfirst, hall, hlast⟩ := plainStr_parts s hp
  have hne : s.data ≠ [] := by rw [hd]; simp
  have heq := strScalarText_eq s ind hp
  have hplain_nonl : ∀ d ∈ s.data, d ≠ '\n' :=
    fun d hdm => (isPlainChar_facts d (hall d hdm)).2.2.2.1
  cases hcol : s.data.contains ':'
  · rw [hcol] at heq
    simp only [Bool.false_eq_true, if_false] at heq
    rw [heq, hd]
    refine ⟨c, cs, rfl, (plainFirst_facts c hfirst).1, ?_, ?_⟩
    · rw [← hd, List.getLast?_eq_getLast _ hne]
      have hgmem : s.data.getLast hne ∈ s.data := List.getLast_mem hne
      have hgplain := hall _ hgmem
      have hgne : s.data.getLast hne ≠ ' ' := by
        intro he
        rw [List.getLast?_eq_getLast _ hne, he] at hlast
        exact hlast rfl
      have := (isPlainChar_facts _ hgplain).2.2.2.2 hgne
      simp [this]
    · intro d hdm
      exact hplain_nonl d (hd ▸ hdm)
  · rw [hcol] at heq
    simp only [if_true] at heq
    rw [heq]
    refine ⟨'"', s.data ++ ['"'], rfl, by decide, ?_, ?_⟩
    · rw [List.getLast?_concat]
      decide
    · intro d hdm
      rcases List.mem_cons.mp hdm with rfl | hdm2
      · decide
      · rcases List.mem_append.mp hdm2 with hdm3 | hdm4
        · exact hplain_nonl d hdm3
        · rcases List.mem_singleton.mp hdm4 with rfl
          decide

/-! ## Line-shape lemmas (C4) -/

/-- The typed probe maps the serializer's text of a plain string back
to that string. -/
theorem parseScalar_strScalarText (s : String) (ind : Nat)
    (hs : plainStr s = true) :
    parseScalar ((strScalarText s ind).data) = .str s := by
  have heq := strScalarText_eq s ind hs
  cases hcol : s.data.contains ':'
  · rw [hcol] at heq
    simp only [Bool.false_eq_true, if_false] at heq
    rw [heq]
    exact parseScalar_plain s hs
  · rw [hcol] at heq
    simp only [if_true] at heq
    rw [heq]
    exact parseScalar_plain_quoted s hs

/-- Strip, indent, split and value facts about the line of a top-level
scalar entry. -/
theorem topScalarLine_facts (k s : String) (hk : plainKey k = true)
    (hs : plainStr s = true) :
    pyStrip (topScalarLine k s) = topScalarLine k s ∧
    (topScalarLine k s) ≠ [] ∧
    (topScalarLine k s).head? ≠ some '#' ∧
    indentOf (topScalarLine k s) = 0 ∧
    (topScalarLine k s).contains ':' = true ∧
    splitFirstColon (topScalarLine k s)
      = (k.data, ' ' :: (strScalarText s 0).data) ∧
    pyStrip k.data = k.data ∧
    pyStrip (' ' :: (strScalarText s 0).data) = (strScalarText s 0).data ∧
    (strScalarText s 0).data ≠ [] ∧
    parseScalar ((strScalarText s 0).data) = .str s ∧
    (∀ d ∈ topScalarLine k s, d ≠ '\n') := by
  obtain ⟨kc, kcs, hkd, hkalpha, hkall⟩ := plainKey_parts k hk
  obtain ⟨t, ts, htd, htws, htlast, htnonl⟩ := strScalarText_facts s 0 hs
  obtain ⟨hkws, hkhash, _⟩ := isAlpha_facts kc hkalpha
  have hkcolon : ∀ d ∈ k.data, d ≠ ':' :=
    fun d hdm => (isKeyChar_facts d (hkall d hdm)).1
  have htne : (strScalarText s 0).data ≠ [] := by rw [htd]; simp
  have hkexp : topScalarLine k s
      = kc :: (kcs ++ ':' :: ' ' :: (strScalarText s 0).data) := by
    unfold topScalarLine
    rw [hkd]
    rfl
  have hklastws : (k.data.getLast?.all fun d => !isWs d) = true := by
    have hkne : k.data ≠ [] := by rw [hkd]; simp
    rw [List.getLast?_eq_getLast _ hkne]
    have := (isKeyChar_facts _ (hkall _ (List.getLast_mem hkne))).2.2.1
    simp [this]
  have hgl2 : (strScalarText s 0).data.getLast? = (t :: ts).getLast? := by
    rw [htd]
  obtain ⟨g, hglx⟩ : ∃ g, (t :: ts).getLast? = some g := by
    cases hg : (t :: ts).getLast? with
    | none => simp at hg
    | some g => exact ⟨g, rfl⟩
  have hgws : isWs g = false := by
    rw [hgl2, hglx] at htlast
    simpa using htlast
  have hb : (':' :: ' ' :: (strScalarText s 0).data).getLast? = some g := by
    rw [List.getLast?_cons_cons, htd, List.getLast?_cons_cons, hglx]
  have hlastline : (topScalarLine k s).getLast? = some g := by
    unfold topScalarLine
    rw [List.getLast?_append, hb]
    rfl
  have hstrip : pyStrip (topScalarLine k s) = topScalarLine k s := by
    apply pyStrip_eq_self
    · rw [hkexp]
      simp [hkws]
    · rw [hlastline]
      simp [hgws]
  have hvalstrip : pyStrip (' ' :: (strScalarText s 0).data)
      = (strScalarText s 0).data := by
    rw [pyStrip_cons_space]
    apply pyStrip_eq_self
    · rw [htd]
      simp [htws]
    · rw [hgl2, hglx]
      simp [hgws]
  refine ⟨hstrip, by rw [hkexp]; simp, ?_, ?_, ?_, ?_, ?_, hvalstrip, htne,
    parseScalar_strScalarText s 0 hs, ?_⟩
  · rw [hkexp]
    simp only [List.head?_cons]
    intro he
    injection he with he2
    exact hkhash he2
  · rw [hkexp]
    exact indentOf_of_head _ _ hkws
  · unfold topScalarLine
    exact contains_colon_append _ _
  · unfold topScalarLine
    exact splitFirstColon_append _ _ hkcolon
  · apply pyStrip_eq_self
    · rw [hkd]
      simp [hkws]
    · exact hklastws
  · intro d hdm
    rw [hkexp] at hdm
    rcases List.mem_cons.mp hdm with rfl | hdm2
    · exact (isKeyChar_facts d (hkall d (by rw [hkd]; simp))).2.1
    · rcases List.mem_append.mp hdm2 with hdm3 | hdm4
      · exact (isKeyChar_facts d (hkall d (by rw [hkd]; simp [hdm3]))).2.1
      · rcases List.mem_cons.mp hdm4 with rfl | hdm5
        · decide
        · rcases List.mem_cons.mp hdm5 with rfl | hdm6
          · decide
          · exact htnonl d hdm6

/-- Strip, indent and split facts about the `key:` line of a top-level
mapping entry. -/
theorem topKeyLine_facts (k : String) (hk : plainKey k = true) :
    pyStrip (k.data ++ [':']) = k.data ++ [':'] ∧
    (k.data ++ [':'] : List Char) ≠ [] ∧
    (k.data ++ [':']).head? ≠ some '#' ∧
    indentOf (k.data ++ [':']) = 0 ∧
    (k.data ++ [':']).contains ':' = true ∧
    splitFirstColon (k.data ++ [':']) = (k.data, []) ∧
    pyStrip k.data = k.data ∧
    (∀ d ∈ k.data ++ [':'], d ≠ '\n') := by
  obtain ⟨kc, kcs, hkd, hkalpha, hkall⟩ := plainKey_parts k hk
  obtain ⟨hkws, hkhash, _⟩ := isAlpha_facts kc hkalpha
  have hkcolon : ∀ d ∈ k.data, d ≠ ':' :=
    fun d hdm => (isKeyChar_facts d (hkall d hdm)).1
  have hkexp : k.data ++ [':'] = kc :: (kcs ++ [':']) := by
    rw [hkd]
    rfl
  have hklastws : (k.data.getLast?.all fun d => !isWs d) = true := by
    have hkne : k.data ≠ [] := by rw [hkd]; simp
    rw [List.getLast?_eq_getLast _ hkne]
    have := (isKeyChar_facts _ (hkall _ (List.getLast_mem hkne))).2.2.1
    simp [this]
  have hkeystrip : pyStrip k.data = k.data := by
    apply pyStrip_eq_self
    · rw [hkd]
      simp [hkws]
    · exact hklastws
  refine ⟨?_, by rw [hkexp]; simp, ?_, ?_, ?_, ?_, hkeystrip, ?_⟩
  · apply pyStrip_eq_self
    · rw [hkexp]
      simp [hkws]
    · rw [List.getLast?_concat]
      decide
  · rw [hkexp]
    simp only [List.head?_cons]
    intro he
    injection he with he2
    exact hkhash he2
  · rw [hkexp]
    exact indentOf_of_head _ _ hkws
  · have : k.data ++ [':'] = k.data ++ ':' :: [] := rfl
    rw [this]
    exact contains_colon_append _ _
  · have : k.data ++ [':'] = k.data ++ ':' :: [] := rfl
    rw [this]
    exact splitFirstColon_append _ _ hkcolon
  · intro d hdm
    rcases List.mem_append.mp hdm with hdm2 | hdm3
    · exact (isKeyChar_facts d (hkall d hdm2)).2.1
    · rcases List.mem_singleton.mp hdm3 with rfl
      decide

/-- Strip, indent, split and value facts about the line of an inner
(depth-2) scalar entry. -/
theorem innerScalarLine_facts (k s : String) (hk : plainKey k = true)
    (hs : plainStr s = true) :
    pyStrip (innerScalarLine k s) = k.data ++ ':' :: ' ' :: (strScalarText s 2).data ∧
    pyStrip (innerScalarLine k s) ≠ [] ∧
    (pyStrip (innerScalarLine k s)).head? ≠ some '#' ∧
    indentOf (innerScalarLine k s) = 2 ∧
    (innerScalarLine k s).contains ':' = true ∧
    splitFirstColon (innerScalarLine k s)
      = (' ' :: ' ' :: k.data, ' ' :: (strScalarText s 2).data) ∧
    pyStrip (' ' :: ' ' :: k.data) = k.data ∧
    pyStrip (' ' :: (strScalarText s 2).data) = (strScalarText s 2).data ∧
    (strScalarText s 2).data ≠ [] ∧
    parseScalar ((strScalarText s 2).data) = .str s ∧
    (∀ d ∈ innerScalarLine k s, d ≠ '\n') := by
  obtain ⟨kc, kcs, hkd, hkalpha, hkall⟩ := plainKey_parts k hk
  obtain ⟨t, ts, htd, htws, htlast, htnonl⟩ := strScalarText_facts s 2 hs
  obtain ⟨hkws, hkhash, _⟩ := isAlpha_facts kc hkalpha
  have hkcolon : ∀ d ∈ k.data, d ≠ ':' :=
    fun d hdm => (isKeyChar_facts d (hkall d hdm)).1
  have htne : (strScalarText s 2).data ≠ [] := by rw [htd]; simp
  have hcorexp : k.data ++ ':' :: ' ' :: (strScalarText s 2).data
      = kc :: (kcs ++ ':' :: ' ' :: (strScalarText s 2).data) := by
    rw [hkd]
    rfl
  have hklastws : (k.data.getLast?.all fun d => !isWs d) = true := by
    have hkne : k.data ≠ [] := by rw [hkd]; simp
    rw [List.getLast?_eq_getLast _ hkne]
    have := (isKeyChar_facts _ (hkall _ (List.getLast_mem hkne))).2.2.1
    simp [this]
  have hgl2 : (strScalarText s 2).data.getLast? = (t :: ts).getLast? := by
    rw [htd]
  obtain ⟨g, hglx⟩ : ∃ g, (t :: ts).getLast? = some g := by
    cases hg : (t :: ts).getLast? with
    | none => simp at hg
    | some g => exact ⟨g, rfl⟩
  have hgws : isWs g = false := by
    rw [hgl2, hglx] at htlast
    simpa using htlast
  have hb : (':' :: ' ' :: (strScalarText s 2).data).getLast? = some g := by
    rw [List.getLast?_cons_cons, htd, List.getLast?_cons_cons, hglx]
  have hlastcore : (k.data ++ ':' :: ' ' :: (strScalarText s 2).data).getLast?
      = some g := by
    rw [List.getLast?_append, hb]
    rfl
  have hcorestrip : pyStrip (k.data ++ ':' :: ' ' :: (strScalarText s 2).data)
      = k.data ++ ':' :: ' ' :: (strScalarText s 2).data := by
    apply pyStrip_eq_self
    · rw [hcorexp]
      simp [hkws]
    · rw [hlastcore]
      simp [hgws]
  have hlinestrip : pyStrip (innerScalarLine k s)
      = k.data ++ ':' :: ' ' :: (strScalarText s 2).data := by
    unfold innerScalarLine
    rw [pyStrip_cons_space, pyStrip_cons_space]
    exact hcorestrip
  have hvalstrip : pyStrip (' ' :: (strScalarText s 2).data)
      = (strScalarText s 2).data := by
    rw [pyStrip_cons_space]
    apply pyStrip_eq_self
    · rw [htd]
      simp [htws]
    · rw [hgl2, hglx]
      simp [hgws]
  refine ⟨hlinestrip, ?_, ?_, ?_, ?_, ?_, ?_, hvalstrip, htne,
    parseScalar_strScalarText s 2 hs, ?_⟩
  · rw [hlinestrip, hcorexp]
    simp
  · rw [hlinestrip, hcorexp]
    simp only [List.head?_cons]
    intro he
    injection he with he2
    exact hkhash he2
  · unfold innerScalarLine
    rw [hcorexp]
    exact indentOf_two_spaces _ _ hkws
  · show ((' ' :: ' ' :: k.data) ++ ':' :: ' ' :: (strScalarText s 2).data).contains ':'
      = true
    exact contains_colon_append _ _
  · show splitFirstColon
      ((' ' :: ' ' :: k.data) ++ ':' :: ' ' :: (strScalarText s 2).data)
      = (' ' :: ' ' :: k.data, ' ' :: (strScalarText s 2).data)
    apply splitFirstColon_append
    intro d hdm
    rcases List.mem_cons.mp hdm with rfl | hdm2
    · decide
    · rcases List.mem_cons.mp hdm2 with rfl | hdm3
      · decide
      · exact hkcolon d hdm3
  · rw [pyStrip_cons_space, pyStrip_cons_space]
    apply pyStrip_eq_self
    · rw [hkd]
      simp [hkws]
    · exact hklastws
  · intro d hdm
    unfold innerScalarLine at hdm
    rcases List.mem_cons.mp hdm with rfl | hdm2
    · decide
    · rcases List.mem_cons.mp hdm2 with rfl | hdm3
      · decide
      · rcases List.mem_append.mp hdm3 with hdm4 | hdm5
        · exact (isKeyChar_facts d (hkall d hdm4)).2.1
        · rcases List.mem_cons.mp hdm5 with rfl | hdm6
          · decide
          · rcases List.mem_cons.mp hdm6 with rfl | hdm7
            · decide
            · exact htnonl d hdm7

/-! ## Parser-step lemmas (C4) -/

/-- A top-level scalar line, at the root: the typed value is inserted
under its key. -/
theorem pstep_flat_top_scalar (m : List (String × Node)) (lk : Option String)
    (k s : String) (hk : plainKey k = true) (hs : plainStr s = true) :
    pstep ⟨[], .map m, 0, lk⟩ (topScalarLine k s)
      = .ok ⟨[], .map (insertKV m k (.str s)), 0, lk⟩ := by
  obtain ⟨hstrip, hne, hhash, hind, hcont, hsplit, hkstrip, hvstrip, hvne,
    hparse, _⟩ := topScalarLine_facts k s hk hs
  unfold pstep
  rw [if_neg (by rw [hstrip]; simp [hne, hhash])]
  try dsimp only
  rw [hind]
  rw [if_neg (by omega), if_neg (by omega), hcont]
  try dsimp only
  rw [if_pos rfl, hsplit]
  try dsimp only
  rw [hkstrip, hvstrip, if_neg hvne, hparse]

/-- A top-level scalar line, reached while still descended in the
previous entry's mapping: the single pop closes that mapping, then the
value is inserted at the root. -/
theorem pstep_desc_top_scalar (M inner : List (String × Node)) (k0 : String)
    (lk : Option String) (k s : String) (hk : plainKey k = true)
    (hs : plainStr s = true) :
    pstep ⟨[(M, k0)], .map inner, 2, lk⟩ (topScalarLine k s)
      = .ok ⟨[], .map (insertKV (insertKV M k0 (.map inner)) k (.str s)), 0,
        lk⟩ := by
  obtain ⟨hstrip, hne, hhash, hind, hcont, hsplit, hkstrip, hvstrip, hvne,
    hparse, _⟩ := topScalarLine_facts k s hk hs
  unfold pstep
  rw [if_neg (by rw [hstrip]; simp [hne, hhash])]
  try dsimp only
  rw [hind]
  rw [if_neg (by omega), if_pos (by omega)]
  try dsimp only
  rw [hcont]
  try dsimp only
  rw [if_pos rfl, hsplit]
  try dsimp only
  rw [hkstrip, hvstrip, if_neg hvne, hparse]

/-- A top-level `key:` line at the root: a fresh empty mapping is
inserted and `last_key` is recorded. -/
theorem pstep_flat_top_key (m : List (String × Node)) (lk : Option String)
    (k : String) (hk : plainKey k = true) :
    pstep ⟨[], .map m, 0, lk⟩ (k.data ++ [':'])
      = .ok ⟨[], .map (insertKV m k (.map [])), 0, some k⟩ := by
  obtain ⟨hstrip, hne, hhash, hind, hcont, hsplit, hkstrip, _⟩ :=
    topKeyLine_facts k hk
  obtain ⟨kc, kcs, hkd, hkalpha, _⟩ := plainKey_parts k hk
  have hh2 : k.data.head? ≠ some '#' := by
    rw [hkd]
    simp only [List.head?_cons]
    intro he
    injection he with he2
    exact (isAlpha_facts kc hkalpha).2.1 he2
  unfold pstep
  rw [if_neg (by rw [hstrip]; simp [hne, hhash, hh2])]
  try dsimp only
  rw [hind]
  rw [if_neg (by omega), if_neg (by omega), hcont]
  try dsimp only
  rw [if_pos rfl, hsplit]
  try dsimp only
  rw [hkstrip]
  rw [show pyStrip ([] : List Char) = [] from rfl, if_pos rfl]

/-- A top-level `key:` line reached while still descended: pop, then
insert the fresh empty mapping at the root. -/
theorem pstep_desc_top_key (M inner : List (String × Node)) (k0 : String)
    (lk : Option String) (k : String) (hk : plainKey k = true) :
    pstep ⟨[(M, k0)], .map inner, 2, lk⟩ (k.data ++ [':'])
      = .ok ⟨[], .map (insertKV (insertKV M k0 (.map inner)) k (.map [])), 0,
        some k⟩ := by
  obtain ⟨hstrip, hne, hhash, hind, hcont, hsplit, hkstrip, _⟩ :=
    topKeyLine_facts k hk
  obtain ⟨kc, kcs, hkd, hkalpha, _⟩ := plainKey_parts k hk
  have hh2 : k.data.head? ≠ some '#' := by
    rw [hkd]
    simp only [List.head?_cons]
    intro he
    injection he with he2
    exact (isAlpha_facts kc hkalpha).2.1 he2
  unfold pstep
  rw [if_neg (by rw [hstrip]; simp [hne, hhash, hh2])]
  try dsimp only
  rw [hind]
  rw [if_neg (by omega), if_pos (by omega)]
  try dsimp only
  rw [hcont]
  try dsimp only
  rw [if_pos rfl, hsplit]
  try dsimp only
  rw [hkstrip]
  rw [show pyStrip ([] : List Char) = [] from rfl, if_pos rfl]

/-- An inner scalar line while already at indent 2: plain insertion into
the current (descended) mapping. -/
theorem pstep_level_inner (stk : List (List (String × Node) × String))
    (done : List (String × Node)) (lk : Option String) (k s : String)
    (hk : plainKey k = true) (hs : plainStr s = true) :
    pstep ⟨stk, .map done, 2, lk⟩ (innerScalarLine k s)
      = .ok ⟨stk, .map (insertKV done k (.str s)), 2, lk⟩ := by
  obtain ⟨hstrip, hne, hhash, hind, hcont, hsplit, hkstrip, hvstrip, hvne,
    hparse, _⟩ := innerScalarLine_facts k s hk hs
  obtain ⟨kc, kcs, hkd, hkalpha, _⟩ := plainKey_parts k hk
  have hh2 : k.data.head? ≠ some '#' := by
    rw [hkd]
    simp only [List.head?_cons]
    intro he
    injection he with he2
    exact (isAlpha_facts kc hkalpha).2.1 he2
  unfold pstep
  rw [if_neg (by rw [hstrip]; simp [hne, hhash, hh2])]
  try dsimp only
  rw [hind]
  rw [if_neg (by omega), if_neg (by omega), hcont]
  try dsimp only
  rw [if_pos rfl, hsplit]
  try dsimp only
  rw [hkstrip, hvstrip, if_neg hvne, hparse]

/-- The first inner scalar line after a `key:` line: the indent
increase pushes the root frame, descends through `last_key` into the
fresh empty mapping, and inserts there. -/
theorem pstep_descend_inner (M : List (String × Node)) (k0 : String)
    (d0 : List (String × Node)) (k s : String) (hk : plainKey k = true)
    (hs : plainStr s = true) (hlook : lookupKV M k0 = some (.map d0)) :
    pstep ⟨[], .map M, 0, some k0⟩ (innerScalarLine k s)
      = .ok ⟨[(M, k0)], .map (insertKV d0 k (.str s)), 2, some k0⟩ := by
  obtain ⟨hstrip, hne, hhash, hind, hcont, hsplit, hkstrip, hvstrip, hvne,
    hparse, _⟩ := innerScalarLine_facts k s hk hs
  obtain ⟨kc, kcs, hkd, hkalpha, _⟩ := plainKey_parts k hk
  have hh2 : k.data.head? ≠ some '#' := by
    rw [hkd]
    simp only [List.head?_cons]
    intro he
    injection he with he2
    exact (isAlpha_facts kc hkalpha).2.1 he2
  unfold pstep
  rw [if_neg (by rw [hstrip]; simp [hne, hhash, hh2])]
  try dsimp only
  rw [hind]
  rw [if_pos (by omega)]
  try dsimp only
  rw [hlook]
  try dsimp only
  rw [hcont]
  try dsimp only
  rw [if_pos rfl, hsplit]
  try dsimp only
  rw [hkstrip, hvstrip, if_neg hvne, hparse]

/-! ## Serialized text as lines (C4) -/

theorem unlines_append (a b : List (List Char)) :
    unlines (a ++ b) = unlines a ++ unlines b := by
  induction a with
  | nil => rfl
  | cons l ls ih =>
    show (l ++ '\n' :: unlines (ls ++ b)) = (l ++ '\n' :: unlines ls) ++ unlines b
    rw [ih]
    simp

theorem dictToYaml_inner_data :
    ∀ inner : List (String × Node), inner.all goodInnerEntry = true →
      (dictToYaml inner 2).data = unlines (serInnerLines inner)
  | [], _ => rfl
  | (k, v) :: rest, h => by
    rw [List.all_cons, Bool.and_eq_true] at h
    obtain ⟨h1, h2⟩ := h
    unfold goodInnerEntry at h1
    rw [Bool.and_eq_true] at h1
    obtain ⟨hk, hv⟩ := h1
    cases v with
    | str s =>
      show (dictToYamlEntry k (.str s) 2 ++ dictToYaml rest 2).data = _
      rw [String.data_append, dictToYaml_inner_data rest h2]
      show (spaces 2 ++ k ++ ": " ++ strScalarText s 2 ++ "\n").data ++ _ = _
      rw [String.data_append, String.data_append, String.data_append,
        String.data_append]
      show ([' ', ' '] ++ k.data ++ [':', ' '] ++ (strScalarText s 2).data
        ++ ['\n']) ++ _ = _
      show _ = innerScalarLine k s ++ '\n' :: unlines (serInnerLines rest)
      unfold innerScalarLine
      simp
    | int i => simp at hv
    | bool b => simp at hv
    | map es => simp at hv
    | list xs => simp at hv

theorem dictToYaml_top_data :
    ∀ es : List (String × Node),
      es.all (fun kv => plainKey kv.1 && goodTopVal kv.2) = true →
      (dictToYaml es 0).data = unlines (serTopLines es)
  | [], _ => rfl
  | (k, v) :: rest, h => by
    rw [List.all_cons, Bool.and_eq_true] at h
    obtain ⟨h1, h2⟩ := h
    rw [Bool.and_eq_true] at h1
    obtain ⟨hk, hv⟩ := h1
    cases v with
    | str s =>
      show (dictToYamlEntry k (.str s) 0 ++ dictToYaml rest 0).data = _
      rw [String.data_append, dictToYaml_top_data rest h2]
      show (spaces 0 ++ k ++ ": " ++ strScalarText s 0 ++ "\n").data ++ _ = _
      rw [String.data_append, String.data_append, String.data_append,
        String.data_append]
      show ([] ++ k.data ++ [':', ' '] ++ (strScalarText s 0).data
        ++ ['\n']) ++ _ = _
      show _ = unlines ([topScalarLine k s] ++ serTopLines rest)
      rw [unlines_append]
      show _ = (topScalarLine k s ++ '\n' :: []) ++ unlines (serTopLines rest)
      unfold topScalarLine
      simp
    | map inner =>
      unfold goodTopVal at hv
      rw [Bool.and_eq_true] at hv
      show (dictToYamlEntry k (.map inner) 0 ++ dictToYaml rest 0).data = _
      rw [String.data_append, dictToYaml_top_data rest h2]
      show (spaces 0 ++ k ++ ":\n" ++ dictToYaml inner 2).data ++ _ = _
      rw [String.data_append, String.data_append,
        dictToYaml_inner_data inner hv.2]
      show ([] ++ k.data ++ [':', '\n']) ++ _ ++ _ = _
      show _ = unlines (((k.data ++ [':']) :: serInnerLines inner)
        ++ serTopLines rest)
      rw [unlines_append]
      show _ = ((k.data ++ [':']) ++ '\n' :: unlines (serInnerLines inner))
        ++ unlines (serTopLines rest)
      simp
    | int i => simp [goodTopVal] at hv
    | bool b => simp [goodTopVal] at hv
    | list xs => simp [goodTopVal] at hv

theorem serInnerLines_no_nl :
    ∀ inner : List (String × Node), inner.all goodInnerEntry = true →
      ∀ l ∈ serInnerLines inner, ∀ c ∈ l, c ≠ '\n'
  | [], _, l, hl => absurd hl (by simp [serInnerLines])
  | (k, v) :: rest, h, l, hl => by
    rw [List.all_cons, Bool.and_eq_true] at h
    obtain ⟨h1, h2⟩ := h
    unfold goodInnerEntry at h1
    rw [Bool.and_eq_true] at h1
    obtain ⟨hk, hv⟩ := h1
    cases v with
    | str s =>
      rw [serInnerLines] at hl
      rcases List.mem_cons.mp hl with rfl | hl2
      · exact (innerScalarLine_facts k s hk hv).2.2.2.2.2.2.2.2.2.2
      · exact serInnerLines_no_nl rest h2 l hl2
    | int i => simp at hv
    | bool b => simp at hv
    | map es => simp at hv
    | list xs => simp at hv

theorem serTopLines_no_nl :
    ∀ es : List (String × Node),
      es.all (fun kv => plainKey kv.1 && goodTopVal kv.2) = true →
      ∀ l ∈ serTopLines es, ∀ c ∈ l, c ≠ '\n'
  | [], _, l, hl => absurd hl (by simp [serTopLines])
  | (k, v) :: rest, h, l, hl => by
    rw [List.all_cons, Bool.and_eq_true] at h
    obtain ⟨h1, h2⟩ := h
    rw [Bool.and_eq_true] at h1
    obtain ⟨hk, hv⟩ := h1
    cases v with
    | str s =>
      rw [serTopLines] at hl
      rcases List.mem_append.mp hl with hl2 | hl3
      · rcases List.mem_singleton.mp hl2 with rfl
        exact (topScalarLine_facts k s hk hv).2.2.2.2.2.2.2.2.2.2
      · exact serTopLines_no_nl rest h2 l hl3
    | map inner =>
      unfold goodTopVal at hv
      rw [Bool.and_eq_true] at hv
      rw [serTopLines] at hl
      rcases List.mem_append.mp hl with hl2 | hl3
      · rcases List.mem_cons.mp hl2 with rfl | hl4
        · exact (topKeyLine_facts k hk).2.2.2.2.2.2.2
        · exact serInnerLines_no_nl inner hv.2 l hl4
      · exact serTopLines_no_nl rest h2 l hl3
    | int i => simp [goodTopVal] at hv
    | bool b => simp [goodTopVal] at hv
    | list xs => simp [goodTopVal] at hv

/-! ## The parse loops (C4) -/

theorem parse_inner_loop (M : List (String × Node)) (k0 : String)
    (tailLines : List (List Char)) :
    ∀ (inner done : List (String × Node)) (lk : Option String),
      inner.all goodInnerEntry = true →
      keysDistinct ((done ++ inner).map Prod.fst) = true →
      parseLines ⟨[(M, k0)], .map done, 2, lk⟩ (serInnerLines inner ++ tailLines)
        = parseLines ⟨[(M, k0)], .map (done ++ inner), 2, lk⟩ tailLines
  | [], done, lk, _, _ => by simp [serInnerLines]
  | (k, v) :: rest, done, lk, hall, hdist => by
    rw [List.all_cons, Bool.and_eq_true] at hall
    obtain ⟨h1, h2⟩ := hall
    unfold goodInnerEntry at h1
    rw [Bool.and_eq_true] at h1
    obtain ⟨hk, hv⟩ := h1
    cases v with
    | str s =>
      rw [serInnerLines, List.cons_append, parseLines,
        pstep_level_inner [(M, k0)] done lk k s hk hv]
      dsimp only
      have hkeys : (done ++ (k, Node.str s) :: rest).map Prod.fst
          = done.map Prod.fst ++ k :: rest.map Prod.fst := by
        simp
      rw [hkeys] at hdist
      have hfresh := keysDistinct_mid (done.map Prod.fst) k
        (rest.map Prod.fst) hdist
      rw [insertKV_fresh k (.str s) done (keys_fresh_of_contains _ _ hfresh)]
      have hdist2 : keysDistinct
          (((done ++ [(k, Node.str s)]) ++ rest).map Prod.fst) = true := by
        have : ((done ++ [(k, Node.str s)]) ++ rest).map Prod.fst
            = done.map Prod.fst ++ k :: rest.map Prod.fst := by
          simp
        rw [this]
        exact hdist
      rw [parse_inner_loop M k0 tailLines rest (done ++ [(k, Node.str s)]) lk
        h2 hdist2]
      have : (done ++ [(k, Node.str s)]) ++ rest
          = done ++ (k, Node.str s) :: rest := by
        simp
      rw [this]
    | int i => simp at hv
    | bool b => simp at hv
    | map es => simp at hv
    | list xs => simp at hv

/-- Running the parser over the serialized lines of an admissible tree,
from either inter-entry state shape, accumulates exactly the tree's
entries. -/
theorem parse_top :
    ∀ (es macc : List (String × Node)) (st : PState),
      es.all (fun kv => plainKey kv.1 && goodTopVal kv.2) = true →
      keysDistinct ((macc ++ es).map Prod.fst) = true →
      RepTop st macc →
      ∃ stF, parseLines st (serTopLines es ++ [[]]) = .ok stF ∧
        finalize stF.stack stF.cur = .map (macc ++ es)
  | [], macc, st, _, _, hrep => by
    refine ⟨st, ?_, ?_⟩
    · show parseLines st ([] ++ [[]]) = .ok st
      rw [List.nil_append, parseLines, pstep_skip st [] (Or.inl rfl)]
      rfl
    · rcases hrep with ⟨h1, h2, _⟩ | ⟨M, k0, inner, h1, h2, _, h4⟩
      · rw [h1, h2, finalize]
        simp
      · rw [h1, h2, finalize, finalize, h4]
        simp
  | (k, v) :: rest, macc, st, hall, hdist, hrep => by
    rw [List.all_cons, Bool.and_eq_true] at hall
    obtain ⟨h1, hrest⟩ := hall
    rw [Bool.and_eq_true] at h1
    obtain ⟨hk, hv⟩ := h1
    have hkeys : (macc ++ (k, v) :: rest).map Prod.fst
        = macc.map Prod.fst ++ k :: rest.map Prod.fst := by simp
    have hfreshb := keysDistinct_mid (macc.map Prod.fst) k (rest.map Prod.fst)
      (by rw [hkeys] at hdist; exact hdist)
    have hfresh := keys_fresh_of_contains macc k hfreshb
    cases v with
    | str s =>
      have hstep : ∃ lk2, pstep st (topScalarLine k s)
          = .ok ⟨[], .map (macc ++ [(k, Node.str s)]), 0, lk2⟩ := by
        rcases hrep with ⟨h1s, h2s, h3s⟩ | ⟨M, k0, inner, h1s, h2s, h3s, h4s⟩
        · obtain ⟨stk, cur, ci, lk⟩ := st
          dsimp only at h1s h2s h3s
          subst h1s
          subst h2s
          subst h3s
          refine ⟨lk, ?_⟩
          rw [pstep_flat_top_scalar macc lk k s hk hv,
            insertKV_fresh k (.str s) macc hfresh]
        · obtain ⟨stk, cur, ci, lk⟩ := st
          dsimp only at h1s h2s h3s
          subst h1s
          subst h2s
          subst h3s
          refine ⟨lk, ?_⟩
          rw [pstep_desc_top_scalar M inner k0 lk k s hk hv, h4s,
            insertKV_fresh k (.str s) macc hfresh]
      obtain ⟨lk2, hstep2⟩ := hstep
      have hser : serTopLines ((k, Node.str s) :: rest) ++ [[]]
          = topScalarLine k s :: (serTopLines rest ++ [[]]) := by
        rw [serTopLines]
        simp
      rw [hser, parseLines, hstep2]
      dsimp only
      have hdist2 : keysDistinct
          (((macc ++ [(k, Node.str s)]) ++ rest).map Prod.fst) = true := by
        have he : ((macc ++ [(k, Node.str s)]) ++ rest).map Prod.fst
            = (macc ++ (k, Node.str s) :: rest).map Prod.fst := by simp
        rw [he]
        exact hdist
      obtain ⟨stF, hrun, hfin⟩ := parse_top rest (macc ++ [(k, Node.str s)])
        ⟨[], .map (macc ++ [(k, Node.str s)]), 0, lk2⟩ hrest hdist2
        (Or.inl ⟨rfl, rfl, rfl⟩)
      refine ⟨stF, hrun, ?_⟩
      rw [hfin]
      have he : (macc ++ [(k, Node.str s)]) ++ rest
          = macc ++ (k, Node.str s) :: rest := by simp
      rw [he]
    | map inner =>
      unfold goodTopVal at hv
      rw [Bool.and_eq_true] at hv
      obtain ⟨hvdist, hvall⟩ := hv
      have hstep2 : pstep st (k.data ++ [':'])
          = .ok ⟨[], .map (macc ++ [(k, Node.map [])]), 0, some k⟩ := by
        rcases hrep with ⟨h1s, h2s, h3s⟩ | ⟨M, k0, inn0, h1s, h2s, h3s, h4s⟩
        · obtain ⟨stk, cur, ci, lk⟩ := st
          dsimp only at h1s h2s h3s
          subst h1s
          subst h2s
          subst h3s
          rw [pstep_flat_top_key macc lk k hk,
            insertKV_fresh k (.map []) macc hfresh]
        · obtain ⟨stk, cur, ci, lk⟩ := st
          dsimp only at h1s h2s h3s
          subst h1s
          subst h2s
          subst h3s
          rw [pstep_desc_top_key M inn0 k0 lk k hk, h4s,
            insertKV_fresh k (.map []) macc hfresh]
      have hser : serTopLines ((k, Node.map inner) :: rest) ++ [[]]
          = (k.data ++ [':']) ::
            (serInnerLines inner ++ (serTopLines rest ++ [[]])) := by
        rw [serTopLines]
        simp
      rw [hser, parseLines, hstep2]
      dsimp only
      cases inner with
      | nil =>
        rw [show serInnerLines [] = [] from rfl, List.nil_append]
        have hdist2 : keysDistinct
            (((macc ++ [(k, Node.map [])]) ++ rest).map Prod.fst) = true := by
          have he : ((macc ++ [(k, Node.map [])]) ++ rest).map Prod.fst
              = (macc ++ (k, Node.map []) :: rest).map Prod.fst := by simp
          rw [he]
          exact hdist
        obtain ⟨stF, hrun, hfin⟩ := parse_top rest (macc ++ [(k, Node.map [])])
          ⟨[], .map (macc ++ [(k, Node.map [])]), 0, some k⟩ hrest hdist2
          (Or.inl ⟨rfl, rfl, rfl⟩)
        refine ⟨stF, hrun, ?_⟩
        rw [hfin]
        have he : (macc ++ [(k, Node.map [])]) ++ rest
            = macc ++ (k, Node.map []) :: rest := by simp
        rw [he]
      | cons hd innerRest =>
        obtain ⟨k2, v2⟩ := hd
        rw [List.all_cons, Bool.and_eq_true] at hvall
        obtain ⟨hv1, hvrest⟩ := hvall
        unfold goodInnerEntry at hv1
        rw [Bool.and_eq_true] at hv1
        obtain ⟨hk2, hv2⟩ := hv1
        cases v2 with
        | str s2 =>
          rw [show serInnerLines ((k2, Node.str s2) :: innerRest)
            = innerScalarLine k2 s2 :: serInnerLines innerRest from rfl]
          rw [List.cons_append, parseLines]
          have hlook : lookupKV (macc ++ [(k, Node.map [])]) k
              = some (Node.map []) :=
            lookupKV_append_fresh k (Node.map []) macc hfresh
          rw [pstep_descend_inner (macc ++ [(k, Node.map [])]) k [] k2 s2 hk2
            hv2 hlook]
          dsimp only
          rw [show insertKV [] k2 (Node.str s2) = [(k2, Node.str s2)] from rfl]
          have hdistI : keysDistinct
              (([(k2, Node.str s2)] ++ innerRest).map Prod.fst) = true := by
            simpa using hvdist
          rw [parse_inner_loop (macc ++ [(k, Node.map [])]) k
            (serTopLines rest ++ [[]]) innerRest [(k2, Node.str s2)] (some k)
            hvrest hdistI]
          rw [show ([(k2, Node.str s2)] ++ innerRest : List (String × Node))
            = (k2, Node.str s2) :: innerRest from rfl]
          have hdist2 : keysDistinct
              (((macc ++ [(k, Node.map ((k2, Node.str s2) :: innerRest))])
                ++ rest).map Prod.fst) = true := by
            have he : ((macc ++ [(k, Node.map ((k2, Node.str s2) :: innerRest))])
                ++ rest).map Prod.fst
                = (macc ++ (k, Node.map ((k2, Node.str s2) :: innerRest))
                  :: rest).map Prod.fst := by simp
            rw [he]
            have he2 : (macc ++ (k, Node.map ((k2, Node.str s2) :: innerRest))
                :: rest).map Prod.fst
                = (macc ++ (k, Node.map ((k2, Node.str s2) :: innerRest))
                  :: rest).map Prod.fst := rfl
            have he3 : (macc ++ (k, Node.map ((k2, Node.str s2) :: innerRest))
                :: rest).map Prod.fst
                = macc.map Prod.fst ++ k :: rest.map Prod.fst := by simp
            rw [he3, ← hkeys]
            exact hdist
          obtain ⟨stF, hrun, hfin⟩ := parse_top rest
            (macc ++ [(k, Node.map ((k2, Node.str s2) :: innerRest))])
            ⟨[(macc ++ [(k, Node.map [])], k)],
              .map ((k2, Node.str s2) :: innerRest), 2, some k⟩ hrest hdist2
            (Or.inr ⟨macc ++ [(k, Node.map [])], k,
              (k2, Node.str s2) :: innerRest, rfl, rfl, rfl,
              insertKV_append_last k (Node.map [])
                (Node.map ((k2, Node.str s2) :: innerRest)) macc hfresh⟩)
          refine ⟨stF, hrun, ?_⟩
          rw [hfin]
          have he : (macc ++ [(k, Node.map ((k2, Node.str s2) :: innerRest))])
              ++ rest
              = macc ++ (k, Node.map ((k2, Node.str s2) :: innerRest))
                :: rest := by simp
          rw [he]
        | int i => simp at hv2
        | bool b => simp at hv2
        | map es2 => simp at hv2
        | list xs => simp at hv2
    | int i => simp [goodTopVal] at hv
    | bool b => simp [goodTopVal] at hv
    | list xs => simp [goodTopVal] at hv

/-! ## Claim theorems (easy gro​up) -/

/-- C1: the claim says a failure while writing a single record is
caught, logged, counted, and the batch continues, `generateYamlFiles`
returning the count of successes.  In the code the `except` handler
calls `self._log(..., file=sys.stderr)`, but `_log` has no `file`
parameter, so the handler itself raises `TypeError` and the batch
aborts: with two records whose first write fails, the run returns the
propagated `TypeError` instead of continuing and returning `1`; with no
failures it returns `2`. -/
theorem c1_record_failure_aborts_batch :
    (generateYamlFiles [1] [("a", .str "<<VARIANT1>>")] [["x"], ["y"]]
        false (fun i => i == 0)).1
      = .error "TypeError: _log() got an unexpected keyword argument: file"
    ∧ (generateYamlFiles [1] [("a", .str "<<VARIANT1>>")] [["x"], ["y"]]
        false (fun _ => false)).1 = .ok 2 :=
  ⟨rfl, rfl⟩

/-- C2 counterexample: with template string `<<VARIANT1>>` (markers
`1..k` for `k = 1`) and the single supplied value `<<VARIANT1>>`, the
resolver replaces the occurrence by the value, yet the output still
contains the substring `<<VARIANT1>>` with index `1 ≤ k` — the claim's
"no `<<VARIANTn>>` substring with `n ≤ k` remains" is false. -/
theorem c2_counterexample_value_reintroduces_marker :
    replaceMarkersInString "<<VARIANT1>>" ["<<VARIANT1>>"] = "<<VARIANT1>>"
    ∧ noMarkerLe 1 ("<<VARIANT1>>".data) = false :=
  ⟨rfl, rfl⟩

/-- C2 (amended): the resolver rebuilds the tree with exactly its
string scalars mapped through `_replaceMarkersInString`, shape intact;
on every string scalar that decomposes into `<`-free literal runs and
`<<VARIANTn>>` occurrences, each occurrence with `1 ≤ n ≤ k` (`k` the
number of supplied values) is replaced by `values[n-1]` and every other
occurrence is kept verbatim, the literal runs unchanged; and provided
the supplied values contain no `<` and every `<` of the template's
string scalars lies inside a marker occurrence, no `<<VARIANTn>>`
substring with `n ≤ k` remains anywhere in the resolved tree (without
that proviso a supplied value, or a value abutting marker-like template
text, can itself put such a substring into the output — see the
counterexample). -/
theorem c2_amended_markers_resolved (values : List String)
    (es : List (String × Node)) (segs : List MarkerSeg)
    (hv : valuesClean values = true) (ht : treeClean es = true)
    (hsegs : segsOk segs = true) :
    entriesStrings (replaceMarkersInDict es values)
        = (entriesStrings es).map (fun s => replaceMarkersInString s values)
    ∧ replaceMarkersInString (String.mk (segsText segs)) values
        = String.mk (segsExpected values segs)
    ∧ treeNoMarkerLe values.length (replaceMarkersInDict es values) = true := by
  refine ⟨?_, ?_, ?_⟩
  · rw [replaceMarkersInDict, entriesStrings_replace]
  · exact congrArg String.mk (subMarkers_segsText values segs hsegs)
  · rw [treeNoMarkerLe, replaceMarkersInDict, entriesStrings_replace,
      List.all_eq_true]
    intro s hs
    rw [List.mem_map] at hs
    obtain ⟨t, hts, rfl⟩ := hs
    show noMarkerLe values.length (subMarkers values t.data) = true
    refine noMarkerLe_subMarkers values t.data ?_ ?_
    · intro v hv2
      exact List.all_eq_true.mp hv v hv2
    · have := List.all_eq_true.mp ht t hts
      simpa using this

/-- Witness for the amended C2 at a concrete input: the scalar
`hi <<VARIANT1>> bye` segmented as literal, marker `1`, literal
resolves to `hi Alice bye`, and no in-range marker text remains in the
resolved tree. -/
theorem c2_amended_markers_resolved_witness :
    valuesClean ["Alice"] = true
    ∧ treeClean [("a", .str "hi <<VARIANT1>> bye")] = true
    ∧ segsOk [MarkerSeg.lit "hi ".data, MarkerSeg.mark ['1'],
        MarkerSeg.lit " bye".data] = true
    ∧ String.mk (segsText [MarkerSeg.lit "hi ".data, MarkerSeg.mark ['1'],
        MarkerSeg.lit " bye".data]) = "hi <<VARIANT1>> bye"
    ∧ String.mk (segsExpected ["Alice"] [MarkerSeg.lit "hi ".data,
        MarkerSeg.mark ['1'], MarkerSeg.lit " bye".data]) = "hi Alice bye"
    ∧ (entriesStrings (replaceMarkersInDict [("a", .str "hi <<VARIANT1>> bye")]
          ["Alice"])
        = (entriesStrings [("a", .str "hi <<VARIANT1>> bye")]).map
            (fun s => replaceMarkersInString s ["Alice"])
      ∧ replaceMarkersInString (String.mk (segsText [MarkerSeg.lit "hi ".data,
          MarkerSeg.mark ['1'], MarkerSeg.lit " bye".data])) ["Alice"]
        = String.mk (segsExpected ["Alice"] [MarkerSeg.lit "hi ".data,
            MarkerSeg.mark ['1'], MarkerSeg.lit " bye".data])
      ∧ treeNoMarkerLe 1
          (replaceMarkersInDict [("a", .str "hi <<VARIANT1>> bye")] ["Alice"])
          = true) :=
  ⟨by decide, by decide, by decide, rfl, rfl,
    c2_amended_markers_resolved ["Alice"] [("a", .str "hi <<VARIANT1>> bye")]
      [MarkerSeg.lit "hi ".data, MarkerSeg.mark ['1'], MarkerSeg.lit " bye".data]
      (by decide) (by decide) (by decide)⟩

/-- C4 counterexample: the tree parsed from `a: <<VARIANT1>>` is in the
supported subset; resolving it with the value `123` yields the string
scalar `123`, whose serialization `a: 123` re-parses as the *integer*
`123` — the round trip changes the value's type, so the claim fails for
resolver-derived trees. -/
theorem c4_counterexample_type_change :
    yamlToDict "a: <<VARIANT1>>" = .ok (.map [("a", .str "<<VARIANT1>>")])
    ∧ replaceMarkersInDict [("a", .str "<<VARIANT1>>")] ["123"]
        = [("a", .str "123")]
    ∧ yamlToDict (dictToYaml [("a", .str "123")] 0)
        = .ok (.map [("a", .int 123)])
    ∧ Node.int 123 ≠ Node.str "123" :=
  ⟨rfl, rfl, rfl, fun h => Node.noConfusion h⟩

/-- C4 (amended): parsing the serializer's output reconstructs the tree
— same keys in the same order, same values, same types — for trees in
the plain subset: mappings of depth at most two whose keys are plain and
whose scalars are plain strings (not typed-literal shaped, no newline,
quote or backslash, not whitespace-trimmed away).  Outside that subset
the code itself breaks the round trip: typed re-parsing changes scalar
types (see the counterexample), `True`/block/sequence scalars do not
re-parse, and the parser's single-frame dedent loses depth beyond two
(see C6). -/
theorem c4_amended_roundtrip (es : List (String × Node))
    (h : goodTop es = true) :
    yamlToDict (dictToYaml es 0) = .ok (.map es) := by
  unfold goodTop at h
  rw [Bool.and_eq_true] at h
  obtain ⟨hdist, hall⟩ := h
  unfold yamlToDict
  rw [dictToYaml_top_data es hall,
    splitOnNl_unlines _ (serTopLines_no_nl es hall)]
  obtain ⟨stF, hrun, hfin⟩ := parse_top es [] initPState hall hdist
    (Or.inl ⟨rfl, rfl, rfl⟩)
  rw [hrun]
  dsimp only
  rw [hfin, List.nil_append]

/-- Witness for the amended C4 on a two-level tree exercising the
quoting branch, a nested mapping, an empty mapping and markers left in
a string. -/
theorem c4_amended_roundtrip_witness :
    goodTop [("a", .str "x: y"), ("m", .map [("k", .str "v w"),
      ("k2", .str "<<VARIANT5>>")]), ("e", .map []), ("z", .str "end")] = true
    ∧ yamlToDict (dictToYaml [("a", .str "x: y"), ("m", .map [("k", .str "v w"),
        ("k2", .str "<<VARIANT5>>")]), ("e", .map []), ("z", .str "end")] 0)
      = .ok (.map [("a", .str "x: y"), ("m", .map [("k", .str "v w"),
        ("k2", .str "<<VARIANT5>>")]), ("e", .map []), ("z", .str "end")]) :=
  ⟨by decide, c4_amended_roundtrip _ (by decide)⟩

/-- C5 counterexample: the claim says the parser fails with a
`FormatError` when a line where a key is expected lacks a `:`
separator; in the code such a line is silently skipped — `a: 1\nb`
parses successfully to the mapping with the single key `a`. -/
theorem c5_counterexample_colonless_line_skipped :
    yamlToDict "a: 1\nb" = .ok (.map [("a", .int 1)]) :=
  rfl

/-- C5 (amended): the parser returns a tree or fails with a
`ValueError` (`FormatError`); but a colon-less line is skipped rather
than an error, an indentation decrease never fails, and what does fail
is an indentation increase with no pending mapping key — in particular,
whenever the first content line of the input is indented, parsing
errors. -/
theorem c5_amended_error_on_initial_indent (s : String)
    (pre : List (List Char)) (l : List Char) (post : List (List Char))
    (hsplit : splitOnNl s.data = pre ++ l :: post)
    (hpre : ∀ p ∈ pre, pyStrip p = [] ∨ (pyStrip p).head? = some '#')
    (hc1 : pyStrip l ≠ []) (hc2 : (pyStrip l).head? ≠ some '#')
    (hind : 0 < indentOf l) :
    ∃ e, yamlToDict s = .error e := by
  unfold yamlToDict
  rw [hsplit]
  obtain ⟨e, he⟩ := parseLines_error_after_skips pre l post initPState hpre
    ⟨_, pstep_indent_no_lastKey initPState l hc1 hc2 hind rfl⟩
  rw [he]
  exact ⟨_, rfl⟩

/-- Witness for the amended C5: a document whose first content line
(after a comment line) is indented. -/
theorem c5_amended_error_on_initial_indent_witness :
    splitOnNl ("# c\n  a: 1".data) = [['#', ' ', 'c'], [' ', ' ', 'a', ':', ' ', '1']]
    ∧ ∃ e, yamlToDict "# c\n  a: 1" = .error e :=
  ⟨by decide,
    c5_amended_error_on_initial_indent "# c\n  a: 1" [['#', ' ', 'c']]
      [' ', ' ', 'a', ':', ' ', '1'] [] (by decide) (by decide) (by decide)
      (by decide) (by decide)⟩

/-- C6: the claim (and the spec's algorithm) says that on an
indentation decrease the parser pops the stack until the top's
indentation is `≤` the new line's, however many levels the indentation
drops.  The code assigns `current_indent` to the new line's indent
inside the `while` body, so the loop pops exactly one frame: after
`a: / b: / c: 1` at indents 0/2/4, the top-level line `d: 2` is
inserted inside `a` instead of at the root. -/
theorem c6_dedent_pops_single_level :
    yamlToDict "a:\n  b:\n    c: 1\nd: 2"
      = .ok (.map [("a", .map [("b", .map [("c", .int 1)]), ("d", .int 2)])]) :=
  rfl

/-- C7: the claim says a string scalar containing a newline is emitted
as `|-` followed by the string's lines one per physical output line.
The code builds the indented lines but joins them with the *empty*
separator (`"".join`), so all lines are concatenated onto a single
physical line: serializing `a\nb` yields `key: |-` followed by the one
line `  a  b`. -/
theorem c7_block_scalar_lines_merged :
    dictToYaml [("key", .str "a\nb")] 0 = "key: |-\n  a  b\n" :=
  rfl

/-- C8: the claim says marker discovery collects indices inside every
string scalar at any depth, including string elements of sequences.
`findMarkers` scans only strings that are dict values; a string that is
a list element reaches the bare recursive call, which ignores
non-containers — so `<<VARIANT2>>` inside a list is missed entirely
(capacity under-reports), while the same string as a dict value is
found. -/
theorem c8_extract_misses_sequence_strings :
    extractMarkers [("a", .list [.str "<<VARIANT2>>"])] = []
    ∧ extractMarkers [("a", .str "<<VARIANT2>>")] = [2] :=
  ⟨rfl, rfl⟩

/-- C9: under-supply is non-destructive and not an error: in a string
scalar of `<`-free text around one marker occurrence whose index is
within the supplied values and one whose index is `0` or exceeds their
count, substitution still produces output in which the in-range
occurrence is replaced by `values[n-1]` while the out-of-range
occurrence remains verbatim, byte for byte, wherever the two occur. -/
theorem c9_under_supply_verbatim (values : List String)
    (pre mid post ds1 ds2 : List Char)
    (hpre : ∀ c ∈ pre, c ≠ '<') (hmid : ∀ c ∈ mid, c ≠ '<')
    (hpost : ∀ c ∈ post, c ≠ '<')
    (h1ne : ds1 ≠ []) (h1d : ∀ c ∈ ds1, c.isDigit = true)
    (h2ne : ds2 ≠ []) (h2d : ∀ c ∈ ds2, c.isDigit = true)
    (h1pos : 1 ≤ digitsToNat ds1) (h1le : digitsToNat ds1 ≤ values.length)
    (hout : digitsToNat ds2 = 0 ∨ values.length < digitsToNat ds2) :
    replaceMarkersInString
        (String.mk (pre ++ (markerText ds1 ++ (mid ++ (markerText ds2 ++ post)))))
        values
      = String.mk (pre ++ ((values.getD (digitsToNat ds1 - 1) "").data
          ++ (mid ++ (markerText ds2 ++ post)))) := by
  unfold replaceMarkersInString
  refine congrArg String.mk ?_
  show subMarkers values
      (pre ++ (markerText ds1 ++ (mid ++ (markerText ds2 ++ post)))) = _
  rw [subMarkers_lit_append values pre _ hpre,
    subMarkers_marker_head values ds1 _ h1ne h1d,
    subMarkers_lit_append values mid _ hmid,
    subMarkers_marker_head values ds2 _ h2ne h2d,
    subMarkers_id_of_noLt values post hpost,
    replacementFor, replacementFor,
    if_pos (⟨h1pos, h1le⟩ :
      1 ≤ digitsToNat ds1 ∧ digitsToNat ds1 ≤ values.length),
    if_neg (show ¬(1 ≤ digitsToNat ds2 ∧ digitsToNat ds2 ≤ values.length)
      by omega)]

/-- Witness for C9 at a concrete input: two values supplied; marker `1`
is replaced by the first value while marker `3` stays verbatim. -/
theorem c9_under_supply_verbatim_witness :
    String.mk ("x ".data ++ (markerText ['1'] ++ (" y ".data
        ++ (markerText ['3'] ++ " z".data)))) = "x <<VARIANT1>> y <<VARIANT3>> z"
    ∧ replaceMarkersInString
        (String.mk ("x ".data ++ (markerText ['1'] ++ (" y ".data
          ++ (markerText ['3'] ++ " z".data))))) ["A", "B"]
      = String.mk ("x ".data
          ++ (((["A", "B"] : List String).getD (digitsToNat ['1'] - 1) "").data
          ++ (" y ".data ++ (markerText ['3'] ++ " z".data))))
    ∧ String.mk ("x ".data
          ++ (((["A", "B"] : List String).getD (digitsToNat ['1'] - 1) "").data
          ++ (" y ".data ++ (markerText ['3'] ++ " z".data))))
      = "x A y <<VARIANT3>> z" :=
  ⟨rfl,
    c9_under_supply_verbatim ["A", "B"] "x ".data " y ".data " z".data
      ['1'] ['3'] (by decide) (by decide) (by decide) (by decide) (by decide)
      (by decide) (by decide) (by decide) (by decide) (by decide),
    rfl⟩

/-- C10 (implicit): substitution is a single left-to-right pass whose
replacement text is inserted literally and never rescanned — a value
that is itself `<<VARIANT1>>`-shaped (or contains backslashes) comes out
character for character, with no further substitution; and
`<<VARIANT0>>` is always left verbatim because indices are 1-based. -/
theorem c10_literal_insertion_no_rescan (v : String) (values : List String) :
    replaceMarkersInString "<<VARIANT1>>" [v] = v
    ∧ replaceMarkersInString "<<VARIANT0>>" values = "<<VARIANT0>>" := by
  constructor
  · show String.mk (v.data ++ []) = v
    rw [List.append_nil]
  · rfl

/-- C3: after generating any number of outputs, the template tree is
unchanged — the orchestrator returns the template it started from, and
the per-record tree is built on `_deepCopyDict`'s reconstruction, which
equals the template without sharing its containers. -/
theorem c3_template_immutable (markers : List Nat)
    (template : List (String × Node)) (records : List (List String))
    (isTxt : Bool) (wf : Nat → Bool) :
    (generateYamlFiles markers template records isTxt wf).2 = template
    ∧ deepCopyEntries template = template := by
  constructor
  · unfold generateYamlFiles
    dsimp only
    split
    · rfl
    · split
      · rfl
      · split
        · rfl
        · split
          · rfl
          · exact genLoop_template wf records template 0 0
  · exact deepCopyEntries_id template

end Lig2Boltz
